import Mathlib

/-!
Shallow embedding of the definitional simplification core
(`dsimplify_core_fn` / `dsimplify_fn`, src/library/tactic/dsimplify_tactic.cpp)
and of the foreign binding `pexpr_subst` (src/library/vm/vm_pexpr.cpp),
together with theorems settling the specification's claims about them.

The expression tree, the visitor with its pre/post hooks, the cache, the
step counter and the restart flag are transcribed from the source.  The
out-of-scope collaborators (signature classifier, definitional-equality
canonicalizer, rewrite-rule database) are parameters of the configuration,
as the specification treats them.  The kernel context-service operations
(instantiation of bound variables against a local frame, re-abstraction)
are not part of the excerpt and are modelled from the specification.

All loops of the source are totalized with an explicit fuel argument; fuel
exhaustion is a distinguished outcome `Err.outOfFuel` that no claim is
about.
-/

namespace DSimp

/-- Binder annotation carried by binders and local constants; the signature
classifier of the source reports the instance-implicit ones positionally,
so here only the distinction of the constructor matters. -/
inductive BInfo
  | default
  | implicit
  | strictImplicit
  | instImplicit
deriving DecidableEq, Repr

/-- The expression tree of the data model: leaf-like shapes
(bound-variable index, local constant, metavariable, sort, constant),
applications, the two binding forms, let, and the tagged node `mac`
carrying an ordered sequence of children (the source's macro shape).
Names and universe levels are abstracted to numbers. -/
inductive Expr
  | var (i : Nat)
  | lconst (id : Nat) (nm : Nat) (ty : Expr) (bi : BInfo)
  | mvar (id : Nat) (ty : Expr)
  | sort (l : Nat)
  | const (n : Nat)
  | app (f a : Expr)
  | lam (nm : Nat) (bi : BInfo) (d b : Expr)
  | pi (nm : Nat) (bi : BInfo) (d b : Expr)
  | elet (nm : Nat) (t v b : Expr)
  | mac (tag : Nat) (args : List Expr)
deriving Repr

mutual

/-- Structural equality on expressions, Bool-valued (the source compares
expression values with a structural `==` besides the pointer fast path). -/
def beqE : Expr → Expr → Bool
  | .var i, .var j => i == j
  | .lconst id nm ty bi, .lconst id' nm' ty' bi' =>
      id == id' && nm == nm' && beqE ty ty' && bi == bi'
  | .mvar id ty, .mvar id' ty' => id == id' && beqE ty ty'
  | .sort l, .sort l' => l == l'
  | .const n, .const n' => n == n'
  | .app f a, .app f' a' => beqE f f' && beqE a a'
  | .lam nm bi d b, .lam nm' bi' d' b' =>
      nm == nm' && bi == bi' && beqE d d' && beqE b b'
  | .pi nm bi d b, .pi nm' bi' d' b' =>
      nm == nm' && bi == bi' && beqE d d' && beqE b b'
  | .elet nm t v b, .elet nm' t' v' b' =>
      nm == nm' && beqE t t' && beqE v v' && beqE b b'
  | .mac t args, .mac t' args' => t == t' && beqL args args'
  | _, _ => false

/-- Structural equality on expression lists. -/
def beqL : List Expr → List Expr → Bool
  | [], [] => true
  | e :: es, e' :: es' => beqE e e' && beqL es es'
  | _, _ => false

end

mutual

theorem beqE_iff : ∀ (a b : Expr), beqE a b = true ↔ a = b
  | .var i, b => by cases b <;> simp [beqE]
  | .lconst id nm ty bi, b => by cases b <;> simp [and_assoc, beqE, beqE_iff ty]
  | .mvar id ty, b => by cases b <;> simp [beqE, beqE_iff ty]
  | .sort l, b => by cases b <;> simp [beqE]
  | .const n, b => by cases b <;> simp [beqE]
  | .app f a, b => by cases b <;> simp [beqE, beqE_iff f, beqE_iff a]
  | .lam nm bi d bd, b => by cases b <;> simp [and_assoc, beqE, beqE_iff d, beqE_iff bd]
  | .pi nm bi d bd, b => by cases b <;> simp [and_assoc, beqE, beqE_iff d, beqE_iff bd]
  | .elet nm t v bd, b => by
      cases b <;> simp [and_assoc, beqE, beqE_iff t, beqE_iff v, beqE_iff bd]
  | .mac t args, b => by cases b <;> simp [beqE, beqL_iff args]

theorem beqL_iff : ∀ (a b : List Expr), beqL a b = true ↔ a = b
  | [], b => by cases b <;> simp [beqL]
  | e :: es, b => by cases b <;> simp [beqL, beqE_iff e, beqL_iff es]

end

instance instDecEqExpr : DecidableEq Expr := fun a b => decidable_of_iff _ (beqE_iff a b)

instance instDecEqExcept {α β : Type} [DecidableEq α] [DecidableEq β] :
    DecidableEq (Except α β) := fun x y =>
  match x, y with
  | .error a, .error b => if h : a = b then .isTrue (by rw [h]) else .isFalse (by simp [h])
  | .ok a, .ok b => if h : a = b then .isTrue (by rw [h]) else .isFalse (by simp [h])
  | .error _, .ok _ => .isFalse (by simp)
  | .ok _, .error _ => .isFalse (by simp)

/-- Identifier of a local constant (0 for other shapes). -/
def localId : Expr → Nat
  | .lconst id _ _ _ => id
  | _ => 0

/-- Name of a local constant (0 for other shapes). -/
def localName : Expr → Nat
  | .lconst _ nm _ _ => nm
  | _ => 0

/-- Type annotation of a local constant. -/
def localType : Expr → Expr
  | .lconst _ _ ty _ => ty
  | _ => .sort 0

/-- Binder annotation of a local constant. -/
def localInfo : Expr → BInfo
  | .lconst _ _ _ bi => bi
  | _ => .default

/-- Body of a binding form (`binding_body` in the source). -/
def bindingBody : Expr → Expr
  | .lam _ _ _ b => b
  | .pi _ _ _ b => b
  | _ => .sort 0

/-- Whether the node is a Lambda (`is_lambda` in the source). -/
def isLambda : Expr → Bool
  | .lam .. => true
  | _ => false

/-- Whether the node is a Pi. -/
def isPiKind : Expr → Bool
  | .pi .. => true
  | _ => false

mutual

/-- Modelled from the spec: the context service's de Bruijn discipline.
Shift every loose bound-variable index that is `≥ s` up by `d`. -/
def liftLooseBVars (s d : Nat) : Expr → Expr
  | .var i => if i < s then .var i else .var (i + d)
  | .lconst id nm ty bi => .lconst id nm (liftLooseBVars s d ty) bi
  | .mvar id ty => .mvar id (liftLooseBVars s d ty)
  | .sort l => .sort l
  | .const n => .const n
  | .app f a => .app (liftLooseBVars s d f) (liftLooseBVars s d a)
  | .lam nm bi dd b => .lam nm bi (liftLooseBVars s d dd) (liftLooseBVars (s+1) d b)
  | .pi nm bi dd b => .pi nm bi (liftLooseBVars s d dd) (liftLooseBVars (s+1) d b)
  | .elet nm t v b =>
      .elet nm (liftLooseBVars s d t) (liftLooseBVars s d v) (liftLooseBVars (s+1) d b)
  | .mac t args => .mac t (liftLooseBVarsList s d args)

/-- Modelled from the spec: `liftLooseBVars` on a child sequence. -/
def liftLooseBVarsList (s d : Nat) : List Expr → List Expr
  | [] => []
  | e :: es => liftLooseBVars s d e :: liftLooseBVarsList s d es

end

/-- Positional lookup in a frame (out-of-range yields index 0, a case the
source's invariants exclude). -/
def nthE : List Expr → Nat → Expr
  | [], _ => .var 0
  | e :: _, 0 => e
  | _ :: es, j+1 => nthE es j

mutual

/-- Modelled from the spec: the context service's instantiation of
bound-variable indices against a frame (the kernel's `instantiate`).
At offset `ofs`, the index `ofs + j` is replaced by `s[j]` (lifted by
`ofs`) when `j` is in range, and indices beyond the range are lowered by
the frame's length. -/
def instantiateCore (s : List Expr) : Nat → Expr → Expr
  | ofs, .var i =>
      if i < ofs then .var i
      else if i - ofs < s.length then liftLooseBVars 0 ofs (nthE s (i - ofs))
      else .var (i - s.length)
  | ofs, .lconst id nm ty bi => .lconst id nm (instantiateCore s ofs ty) bi
  | ofs, .mvar id ty => .mvar id (instantiateCore s ofs ty)
  | _, .sort l => .sort l
  | _, .const n => .const n
  | ofs, .app f a => .app (instantiateCore s ofs f) (instantiateCore s ofs a)
  | ofs, .lam nm bi d b => .lam nm bi (instantiateCore s ofs d) (instantiateCore s (ofs+1) b)
  | ofs, .pi nm bi d b => .pi nm bi (instantiateCore s ofs d) (instantiateCore s (ofs+1) b)
  | ofs, .elet nm t v b =>
      .elet nm (instantiateCore s ofs t) (instantiateCore s ofs v) (instantiateCore s (ofs+1) b)
  | ofs, .mac t args => .mac t (instantiateCoreList s ofs args)

/-- Modelled from the spec: `instantiateCore` on a child sequence. -/
def instantiateCoreList (s : List Expr) : Nat → List Expr → List Expr
  | _, [] => []
  | ofs, e :: es => instantiateCore s ofs e :: instantiateCoreList s ofs es

end

/-- Modelled from the spec: the source's `instantiate_rev(e, n, locals)`,
which substitutes against the reversed frame, so that index 0 stands for
the most recently pushed local. -/
def instantiate_rev (e : Expr) (locals : List Expr) : Expr :=
  instantiateCore locals.reverse 0 e

/-- Modelled from the spec: the kernel's single-value `instantiate(body, a)`
used by `pexpr_subst`. -/
def instantiate1 (b a : Expr) : Expr :=
  instantiateCore [a] 0 b

/-- Index of an identifier in a list of identifiers. -/
def locIdx : List Nat → Nat → Option Nat
  | [], _ => none
  | x :: xs, id => if x = id then some 0 else (locIdx xs id).map (· + 1)

mutual

/-- Modelled from the spec: the context service's re-abstraction of a
frame back into bound-variable form (the kernel's `abstract_locals`): at
depth `d`, the local constant matching the `j`-th of the `n` given
identifiers becomes index `d + n - 1 - j`. -/
def abstractLocals (ids : List Nat) : Nat → Expr → Expr
  | _, .var i => .var i
  | d, .lconst id nm ty bi =>
      match locIdx ids id with
      | some j => .var (d + ids.length - 1 - j)
      | none => .lconst id nm (abstractLocals ids d ty) bi
  | d, .mvar id ty => .mvar id (abstractLocals ids d ty)
  | _, .sort l => .sort l
  | _, .const n => .const n
  | d, .app f a => .app (abstractLocals ids d f) (abstractLocals ids d a)
  | d, .lam nm bi dd b => .lam nm bi (abstractLocals ids d dd) (abstractLocals ids (d+1) b)
  | d, .pi nm bi dd b => .pi nm bi (abstractLocals ids d dd) (abstractLocals ids (d+1) b)
  | d, .elet nm t v b =>
      .elet nm (abstractLocals ids d t) (abstractLocals ids d v) (abstractLocals ids (d+1) b)
  | d, .mac t args => .mac t (abstractLocalsList ids d args)

/-- Modelled from the spec: `abstractLocals` on a child sequence. -/
def abstractLocalsList (ids : List Nat) : Nat → List Expr → List Expr
  | _, [] => []
  | d, e :: es => abstractLocals ids d e :: abstractLocalsList ids d es

end

/-- Build one binder node of the requested kind. -/
def mkB (isPi : Bool) (nm : Nat) (bi : BInfo) (d b : Expr) : Expr :=
  if isPi then .pi nm bi d b else .lam nm bi d b

/-- Identifiers of a frame of local constants. -/
def localIds (ls : List Expr) : List Nat := ls.map localId

/-- Modelled from the spec: wrap binders around an already-abstracted body,
innermost local first (the reversed frame); the `j`-th local's type is
abstracted against the locals before it. -/
def mkBindingGo (isPi : Bool) : List Expr → Expr → Expr
  | [], b => b
  | l :: rest, b =>
      mkBindingGo isPi rest
        (mkB isPi (localName l) (localInfo l)
          (abstractLocals (localIds rest.reverse) 0 (localType l)) b)

/-- Modelled from the spec: the context service's `mk_lambda` / `mk_pi` on a
temporary frame: abstract the frame out of the body and re-wrap a binder
per local, using each local's recorded type. -/
def mkBindingFromLocals (isPi : Bool) (locals : List Expr) (b : Expr) : Expr :=
  mkBindingGo isPi locals.reverse (abstractLocals (localIds locals) 0 b)

mutual

/-- Loose bound-variable indices of the traversal surface are `< d`.
Type annotations of local constants and metavariables are not inspected,
because the visitor never dispatches on them. -/
def closedUpTo : Nat → Expr → Bool
  | d, .var i => i < d
  | _, .lconst .. => true
  | _, .mvar .. => true
  | _, .sort _ => true
  | _, .const _ => true
  | d, .app f a => closedUpTo d f && closedUpTo d a
  | d, .lam _ _ dd b => closedUpTo d dd && closedUpTo (d+1) b
  | d, .pi _ _ dd b => closedUpTo d dd && closedUpTo (d+1) b
  | d, .elet _ t v b => closedUpTo d t && closedUpTo d v && closedUpTo (d+1) b
  | d, .mac _ args => closedUpToList d args

/-- `closedUpTo` on a child sequence. -/
def closedUpToList : Nat → List Expr → Bool
  | _, [] => true
  | d, e :: es => closedUpTo d e && closedUpToList d es

end

/-- Failure outcomes: the resource-exhaustion error of `inc_num_steps`, the
fatal condition on meeting a raw bound-variable index (`lean_unreachable`
in the source), and the artificial fuel-exhaustion outcome of this
embedding's totalization. -/
inductive Err
  | maxSteps
  | looseBVar
  | outOfFuel
deriving DecidableEq, Repr

/-- The engine's mutable state: the memoization cache (structural keys,
most recent insertion found first), the step counter, the restart flag,
the context's fresh-local counter, and the canonicalizer's global state. -/
structure St where
  cache : List (Expr × Expr)
  numSteps : Nat
  needRestart : Bool
  nextId : Nat
  canonState : Nat
deriving DecidableEq, Repr

/-- Engine configuration: the construction parameters (step ceiling,
visit-instances mode) together with the external collaborators — the
signature classifier (`get_fun_info`), the canonicalizer
(`defeq_canonize`, returning the representative, the mutation report and
its new global state) and the two virtual hooks. -/
structure Cfg where
  maxSteps : Nat
  visitInstances : Bool
  funInfo : Expr → Nat → List Bool
  canon : Nat → Expr → Expr × Bool × Nat
  pre : Expr → St → Except Err (Option (Expr × Bool) × St)
  post : Expr → St → Except Err (Option (Expr × Bool) × St)

/-- `dsimplify_core_fn::inc_num_steps`: bump the counter and fail with the
resource-exhaustion error when it exceeds the ceiling. -/
def inc_num_steps (cfg : Cfg) (st : St) : Except Err St :=
  if st.numSteps + 1 > cfg.maxSteps then .error .maxSteps
  else .ok {st with numSteps := st.numSteps + 1}

/-- Lookup in the structural-key cache. -/
def findCache : List (Expr × Expr) → Expr → Option Expr
  | [], _ => none
  | p :: ps, e => if p.1 = e then some p.2 else findCache ps e

/-- Record a mapping in the cache. -/
def insertCache (e r : Expr) (st : St) : St :=
  {st with cache := (e, r) :: st.cache}

/-- `visit_macro`: visit each child in order (the result is rebuilt from
the visited children). -/
def visit_list (v : Expr → St → Except Err (Expr × St)) :
    List Expr → St → Except Err (List Expr × St)
  | [], st => .ok ([], st)
  | a :: as, st =>
      match v a st with
      | .error er => .error er
      | .ok (na, st1) =>
          match visit_list v as st1 with
          | .error er => .error er
          | .ok (nas, st2) => .ok (na :: nas, st2)

/-- The argument loops of `visit_app`: while classifier entries remain,
an instance-implicit position goes to the canonicalizer (recording its
mutation report in the restart flag) and any other position is visited;
once the entries run out, the remaining arguments are visited.  Returns
the new arguments, the `modified` flag, and the final state. -/
def visit_app_args (v : Expr → St → Except Err (Expr × St)) (cfg : Cfg) :
    List Bool → List Expr → St → Except Err (List Expr × Bool × St)
  | _, [], st => .ok ([], false, st)
  | [], a :: as, st =>
      match v a st with
      | .error er => .error er
      | .ok (na, st1) =>
          match visit_app_args v cfg [] as st1 with
          | .error er => .error er
          | .ok (nas, m, st2) => .ok (na :: nas, (decide (na ≠ a) || m), st2)
  | p :: ps, a :: as, st =>
      if p then
        let r := cfg.canon st.canonState a
        let st1 := {st with needRestart := st.needRestart || r.2.1, canonState := r.2.2}
        match visit_app_args v cfg ps as st1 with
        | .error er => .error er
        | .ok (nas, m, st2) => .ok (r.1 :: nas, (decide (r.1 ≠ a) || m), st2)
      else
        match v a st with
        | .error er => .error er
        | .ok (na, st1) =>
            match visit_app_args v cfg ps as st1 with
            | .error er => .error er
            | .ok (nas, m, st2) => .ok (na :: nas, (decide (na ≠ a) || m), st2)

/-- `get_app_args` accumulator: unwind an application spine. -/
def getAppArgsAux : Expr → List Expr → Expr × List Expr
  | .app f a, acc => getAppArgsAux f (a :: acc)
  | e, acc => (e, acc)

/-- `get_app_args`: head of an application spine and its ordered args. -/
def getAppArgs (e : Expr) : Expr × List Expr := getAppArgsAux e []

/-- `mk_app` on a spine: fold the arguments back onto the head. -/
def mkAppL (f : Expr) (as : List Expr) : Expr := as.foldl .app f

/-- `dsimplify_core_fn::visit_app`: decompose into head and arguments,
consult the signature classifier unless instances are visited, process
the arguments, and rebuild only if some argument changed. -/
def visit_app (v : Expr → St → Except Err (Expr × St)) (cfg : Cfg) (e : Expr) (st : St) :
    Except Err (Expr × St) :=
  let fa := getAppArgs e
  let pinfos := if cfg.visitInstances then [] else cfg.funInfo fa.1 fa.2.length
  match visit_app_args v cfg pinfos fa.2 st with
  | .error er => .error er
  | .ok (nargs, m, st1) => .ok (if m then mkAppL fa.1 nargs else e, st1)

/-- Tail step shared by the binder and let walks: instantiate the final
body against the frame, visit it, and extend the `modified` flag. -/
def visit_bindingFinish (v : Expr → St → Except Err (Expr × St))
    (b : Expr) (locals : List Expr) (modified : Bool) (st : St) :
    Except Err (Expr × Bool × List Expr × St) :=
  let b' := instantiate_rev b locals
  match v b' st with
  | .error er => .error er
  | .ok (newB, st1) => .ok (newB, modified || decide (b' ≠ newB), locals, st1)

/-- The chain walk of `dsimplify_core_fn::visit_binding`: while the node
kind matches, instantiate the domain against the frame built so far,
visit it, and push a fresh local carrying the visited domain `new_d`;
then instantiate and visit the body. -/
def visit_bindingAux (v : Expr → St → Except Err (Expr × St)) (isPi : Bool) :
    Expr → List Expr → Bool → St → Except Err (Expr × Bool × List Expr × St)
  | .lam nm bi d bd, locals, modified, st =>
      if isPi then visit_bindingFinish v (.lam nm bi d bd) locals modified st
      else
        let d' := instantiate_rev d locals
        match v d' st with
        | .error er => .error er
        | .ok (newD, st1) =>
            visit_bindingAux v isPi bd (locals ++ [Expr.lconst st1.nextId nm newD bi])
              (modified || decide (d' ≠ newD)) {st1 with nextId := st1.nextId + 1}
  | .pi nm bi d bd, locals, modified, st =>
      if isPi then
        let d' := instantiate_rev d locals
        match v d' st with
        | .error er => .error er
        | .ok (newD, st1) =>
            visit_bindingAux v isPi bd (locals ++ [Expr.lconst st1.nextId nm newD bi])
              (modified || decide (d' ≠ newD)) {st1 with nextId := st1.nextId + 1}
      else visit_bindingFinish v (.pi nm bi d bd) locals modified st
  | b, locals, modified, st => visit_bindingFinish v b locals modified st

/-- `dsimplify_core_fn::visit_binding`: walk the chain and rebuild the
binder from the frame only if some domain or the body changed, otherwise
return the original node. -/
def visit_binding (v : Expr → St → Except Err (Expr × St)) (e : Expr) (st : St) :
    Except Err (Expr × St) :=
  match visit_bindingAux v (isPiKind e) e [] false st with
  | .error er => .error er
  | .ok (newB, modified, locals, st1) =>
      .ok (if modified then mkBindingFromLocals (isPiKind e) locals newB else e, st1)

/-- The chain walk of `dsimplify_core_fn::visit_let`: instantiate type and
value against the frame, visit both, and push a local that carries the
original instantiated type. -/
def visit_letAux (vis : Expr → St → Except Err (Expr × St)) :
    Expr → List Expr → Bool → St → Except Err (Expr × Bool × List Expr × St)
  | .elet nm t vl bd, locals, modified, st =>
      let t' := instantiate_rev t locals
      let v' := instantiate_rev vl locals
      match vis t' st with
      | .error er => .error er
      | .ok (newT, st1) =>
          match vis v' st1 with
          | .error er => .error er
          | .ok (newV, st2) =>
              visit_letAux vis bd (locals ++ [Expr.lconst st2.nextId nm t' .default])
                (modified || decide (t' ≠ newT) || decide (v' ≠ newV))
                {st2 with nextId := st2.nextId + 1}
  | b, locals, modified, st => visit_bindingFinish vis b locals modified st

/-- `dsimplify_core_fn::visit_let`: walk the let chain; on change the
source rebuilds the frame with `mk_lambda`. -/
def visit_let (vis : Expr → St → Except Err (Expr × St)) (e : Expr) (st : St) :
    Except Err (Expr × St) :=
  match visit_letAux vis e [] false st with
  | .error er => .error er
  | .ok (newB, modified, locals, st1) =>
      .ok (if modified then mkBindingFromLocals false locals newB else e, st1)

/-- The per-shape `switch` of `dsimplify_core_fn::visit`: leaves are
unchanged, a raw bound-variable index is the fatal `lean_unreachable`
branch, and the composite shapes go to their walkers. -/
def dispatch (v : Expr → St → Except Err (Expr × St)) (cfg : Cfg) (curr : Expr) (st : St) :
    Except Err (Expr × St) :=
  match curr with
  | .var _ => .error .looseBVar
  | .lconst .. => .ok (curr, st)
  | .mvar .. => .ok (curr, st)
  | .sort _ => .ok (curr, st)
  | .const _ => .ok (curr, st)
  | .mac tag args =>
      match visit_list v args st with
      | .error er => .error er
      | .ok (nargs, st1) => .ok (.mac tag nargs, st1)
  | .lam .. => visit_binding v curr st
  | .pi .. => visit_binding v curr st
  | .app .. => visit_app v cfg curr st
  | .elet .. => visit_let v curr st

/-- The `while (true)` loop of `dsimplify_core_fn::visit`: dispatch on the
current node, then consult the post hook; `none` stops keeping the
current node (the dispatched result is dropped), `(r, false)` stops with
`r`, and `(r, true)` loops with `r` as the new current node. -/
def post_loop (v : Expr → St → Except Err (Expr × St)) (cfg : Cfg) :
    Nat → Expr → St → Except Err (Expr × St)
  | 0, _, _ => .error .outOfFuel
  | fuel+1, curr, st =>
      match dispatch v cfg curr st with
      | .error er => .error er
      | .ok (newE, st1) =>
          match cfg.post newE st1 with
          | .error er => .error er
          | .ok (none, st2) => .ok (curr, st2)
          | .ok (some (r, cont), st2) =>
              if cont then post_loop v cfg fuel r st2 else .ok (r, st2)

/-- `dsimplify_core_fn::visit`: count the step, consult the cache, consult
the pre hook — `(r, false)` caches and returns `r` without visiting
children, while `none` and `(r, true)` both fall through to the loop on
the original node `e` — then cache and return the loop's result. -/
def visit : Nat → Cfg → Expr → St → Except Err (Expr × St)
  | 0, _, _, _ => .error .outOfFuel
  | fuel+1, cfg, e, st =>
      match inc_num_steps cfg st with
      | .error er => .error er
      | .ok st1 =>
          match findCache st1.cache e with
          | some r => .ok (r, st1)
          | none =>
              match cfg.pre e st1 with
              | .error er => .error er
              | .ok (some (r, false), st2) => .ok (r, insertCache e r st2)
              | .ok (some (_, true), st2) =>
                  match post_loop (fun a s => visit fuel cfg a s) cfg fuel e st2 with
                  | .error er => .error er
                  | .ok (r, st3) => .ok (r, insertCache e r st3)
              | .ok (none, st2) =>
                  match post_loop (fun a s => visit fuel cfg a s) cfg fuel e st2 with
                  | .error er => .error er
                  | .ok (r, st3) => .ok (r, insertCache e r st3)

/-- `dsimplify_core_fn::operator()`: clear the restart flag, run the visit
on `e`, and return its result unless the flag was set, in which case the
cache is discarded and the loop continues on the visit's result. -/
def dsimplify : Nat → Nat → Cfg → Expr → St → Except Err (Expr × St)
  | 0, _, _, _, _ => .error .outOfFuel
  | rfuel+1, vfuel, cfg, e, st =>
      match visit vfuel cfg e {st with needRestart := false} with
      | .error er => .error er
      | .ok (e', st') =>
          if st'.needRestart then dsimplify rfuel vfuel cfg e' {st' with cache := []}
          else .ok (e', st')

/-- A rewrite rule as the fixed-point applicator sees it: whether it is a
refl lemma (the source's `sl.is_refl()`, the spec's unconditional rule),
and the effect of `refl_lemma_rewrite` with it on a node. -/
structure SimpLemma where
  isRefl : Bool
  rw : Expr → Expr

/-- The inner `for` loop of `dsimplify_fn::post`: the first refl lemma in
the candidate list is applied to the node and the scan stops; non-refl
lemmas are skipped; with no refl candidate the node is unchanged. -/
def applyFirstRefl : List SimpLemma → Expr → Expr
  | [], e => e
  | sl :: ls, e => if sl.isRefl then sl.rw e else applyFirstRefl ls e

/-- The `while (true)` loop of `dsimplify_fn::post`: count a step, look up
candidates for the current node (stop when there are none), apply the
first refl lemma, stop if that changed nothing, else restart the lookup
on the new node. -/
def dsimp_post_loop (lem : Expr → Option (List SimpLemma)) (cfg : Cfg) :
    Nat → Expr → St → Except Err (Expr × St)
  | 0, _, _ => .error .outOfFuel
  | fuel+1, curr, st =>
      match inc_num_steps cfg st with
      | .error er => .error er
      | .ok st1 =>
          match lem curr with
          | none => .ok (curr, st1)
          | some ls =>
              let newE := applyFirstRefl ls curr
              if newE = curr then .ok (curr, st1) else dsimp_post_loop lem cfg fuel newE st1

/-- `dsimplify_fn::post`: run the rewrite loop; return nothing when the
node after the loop equals the node given, else the final node paired
with continue = true. -/
def dsimp_post (lem : Expr → Option (List SimpLemma)) (cfg : Cfg) (fuel : Nat)
    (e : Expr) (st : St) : Except Err (Option (Expr × Bool) × St) :=
  match dsimp_post_loop lem cfg fuel e st with
  | .error er => .error er
  | .ok (curr, st1) =>
      if curr = e then .ok (none, st1) else .ok (some (curr, true), st1)

/-- Modelled from the spec's words, for comparison with `dsimplify` (claim
C1): on restart, discard the cache and re-run the visit on the original
root submitted by the caller, not on the result of the failed pass. -/
def dsimplify_specC1 : Nat → Nat → Cfg → Expr → St → Except Err (Expr × St)
  | 0, _, _, _, _ => .error .outOfFuel
  | rfuel+1, vfuel, cfg, e, st =>
      match visit vfuel cfg e {st with needRestart := false} with
      | .error er => .error er
      | .ok (e', st') =>
          if st'.needRestart then dsimplify_specC1 rfuel vfuel cfg e {st' with cache := []}
          else .ok (e', st')

/-- Modelled from the spec's words, for comparison with `visit` (claim
C2): when the pre hook returns `(r, true)` the visit recurses into the
children of the replacement `r`; everything else is as in `visit`. -/
def visit_specC2 : Nat → Cfg → Expr → St → Except Err (Expr × St)
  | 0, _, _, _ => .error .outOfFuel
  | fuel+1, cfg, e, st =>
      match inc_num_steps cfg st with
      | .error er => .error er
      | .ok st1 =>
          match findCache st1.cache e with
          | some r => .ok (r, st1)
          | none =>
              match cfg.pre e st1 with
              | .error er => .error er
              | .ok (some (r, false), st2) => .ok (r, insertCache e r st2)
              | .ok (some (r, true), st2) =>
                  match post_loop (fun a s => visit_specC2 fuel cfg a s) cfg fuel r st2 with
                  | .error er => .error er
                  | .ok (r', st3) => .ok (r', insertCache e r' st3)
              | .ok (none, st2) =>
                  match post_loop (fun a s => visit_specC2 fuel cfg a s) cfg fuel e st2 with
                  | .error er => .error er
                  | .ok (r, st3) => .ok (r, insertCache e r st3)

/-- Modelled from the spec's words, for comparison with `post_loop` (claim
C3): the post hook is re-invoked directly on each replacement while it
answers continue = true, with no re-descent into the replacement. -/
def post_iter_specC3 (cfg : Cfg) : Nat → Expr → St → Except Err (Expr × St)
  | 0, _, _ => .error .outOfFuel
  | fuel+1, cur, st =>
      match cfg.post cur st with
      | .error er => .error er
      | .ok (none, st1) => .ok (cur, st1)
      | .ok (some (r, cont), st1) =>
          if cont then post_iter_specC3 cfg fuel r st1 else .ok (r, st1)

/-- Modelled from the spec's words, for comparison with `post_loop` (claim
C3): dispatch once on the node, then iterate the post hook directly. -/
def post_loop_specC3 (v : Expr → St → Except Err (Expr × St)) (cfg : Cfg)
    (fuel : Nat) (curr : Expr) (st : St) : Except Err (Expr × St) :=
  match dispatch v cfg curr st with
  | .error er => .error er
  | .ok (newE, st1) => post_iter_specC3 cfg fuel newE st1

/-- Modelled from the spec's words, for comparison with `visit` (claim
C3): `visit` with the no-re-descent post loop. -/
def visit_specC3 : Nat → Cfg → Expr → St → Except Err (Expr × St)
  | 0, _, _, _ => .error .outOfFuel
  | fuel+1, cfg, e, st =>
      match inc_num_steps cfg st with
      | .error er => .error er
      | .ok st1 =>
          match findCache st1.cache e with
          | some r => .ok (r, st1)
          | none =>
              match cfg.pre e st1 with
              | .error er => .error er
              | .ok (some (r, false), st2) => .ok (r, insertCache e r st2)
              | .ok (some (_, true), st2) =>
                  match post_loop_specC3 (fun a s => visit_specC3 fuel cfg a s) cfg fuel e st2 with
                  | .error er => .error er
                  | .ok (r, st3) => .ok (r, insertCache e r st3)
              | .ok (none, st2) =>
                  match post_loop_specC3 (fun a s => visit_specC3 fuel cfg a s) cfg fuel e st2 with
                  | .error er => .error er
                  | .ok (r, st3) => .ok (r, insertCache e r st3)

/-- Modelled from the spec's words, for comparison with `visit_bindingAux`
(claim C4): the fresh local pushed at each chain step carries the
original un-simplified (instantiated) domain, the simplified domain being
used only transiently; everything else is as in `visit_bindingAux`. -/
def visit_bindingAux_specC4 (v : Expr → St → Except Err (Expr × St)) (isPi : Bool) :
    Expr → List Expr → Bool → St → Except Err (Expr × Bool × List Expr × St)
  | .lam nm bi d bd, locals, modified, st =>
      if isPi then visit_bindingFinish v (.lam nm bi d bd) locals modified st
      else
        let d' := instantiate_rev d locals
        match v d' st with
        | .error er => .error er
        | .ok (newD, st1) =>
            visit_bindingAux_specC4 v isPi bd (locals ++ [Expr.lconst st1.nextId nm d' bi])
              (modified || decide (d' ≠ newD)) {st1 with nextId := st1.nextId + 1}
  | .pi nm bi d bd, locals, modified, st =>
      if isPi then
        let d' := instantiate_rev d locals
        match v d' st with
        | .error er => .error er
        | .ok (newD, st1) =>
            visit_bindingAux_specC4 v isPi bd (locals ++ [Expr.lconst st1.nextId nm d' bi])
              (modified || decide (d' ≠ newD)) {st1 with nextId := st1.nextId + 1}
      else visit_bindingFinish v (.pi nm bi d bd) locals modified st
  | b, locals, modified, st => visit_bindingFinish v b locals modified st

/-- Modelled from the spec's words, for comparison with `visit_binding`
(claim C4): the binder walk with locals carrying original domains. -/
def visit_binding_specC4 (v : Expr → St → Except Err (Expr × St)) (e : Expr) (st : St) :
    Except Err (Expr × St) :=
  match visit_bindingAux_specC4 v (isPiKind e) e [] false st with
  | .error er => .error er
  | .ok (newB, modified, locals, st1) =>
      .ok (if modified then mkBindingFromLocals (isPiKind e) locals newB else e, st1)

/-- A clean accumulating pass of the canonicalizer over an argument list:
canonical representatives in order, the disjunction of the mutation
reports, and the final canonicalizer state. -/
def canonFold (cfg : Cfg) : List Expr → Nat → List Expr × Bool × Nat
  | [], c => ([], false, c)
  | a :: as, c =>
      let r := cfg.canon c a
      let rest := canonFold cfg as r.2.2
      (r.1 :: rest.1, r.2.1 || rest.2.1, rest.2.2)

/-- `pexpr_subst` (src/library/vm/vm_pexpr.cpp): if the first expression
is a lambda, instantiate its body with the second expression, otherwise
return the first expression unchanged. -/
def pexpr_subst (e1 e2 : Expr) : Expr :=
  if isLambda e1 then instantiate1 (bindingBody e1) e2 else e1

/-- The trivial hook of the core engine (`dsimplify_core_fn::pre/post`):
always answer nothing. -/
def hookNone : Expr → St → Except Err (Option (Expr × Bool) × St) := fun _ st => .ok (none, st)

/-- A post hook that accepts the rebuilt node and stops the loop. -/
def hookAccept : Expr → St → Except Err (Option (Expr × Bool) × St) :=
  fun e st => .ok (some (e, false), st)

/-- Canonicalizer stub: identity, no mutation report. -/
def canonId : Nat → Expr → Expr × Bool × Nat := fun c a => (a, false, c)

/-- Canonicalizer stub: replaces its argument by `const 99` and reports a
mutation exactly on its first call. -/
def canonOnce : Nat → Expr → Expr × Bool × Nat := fun c a =>
  match c with
  | 0 => (.const 99, true, 1)
  | _ => (a, false, c)

/-- Classifier stub: a one-argument application's argument is
instance-implicit. -/
def funInfoOne : Expr → Nat → List Bool := fun _ n => if n = 1 then [true] else []

/-- Classifier stub: of three arguments, exactly the second is
instance-implicit. -/
def funInfoThree : Expr → Nat → List Bool := fun _ n => if n = 3 then [false, true, false] else []

/-- Canonicalizer stub mapping everything to the sentinel `const 5`. -/
def canonSent : Nat → Expr → Expr × Bool × Nat := fun c _ => (.const 5, false, c)

/-- Sentinel canonicalizer that also reports a mutation. -/
def canonSentMut : Nat → Expr → Expr × Bool × Nat := fun c _ => (.const 5, true, c)

/-- Initial state: empty cache, zero counters, flag clear. -/
def st0 : St := ⟨[], 0, false, 0, 0⟩

/-- Pre hook answering `(const 1, continue)` on `const 0`, else nothing. -/
def preC2 : Expr → St → Except Err (Option (Expr × Bool) × St)
  | .const 0, st => .ok (some (.const 1, true), st)
  | _, st => .ok (none, st)

/-- Post hook answering `(mac 9 [const 1], continue)` on `const 0`,
rewriting `const 1` to `const 2`, and accepting any `mac 9` node. -/
def postC3 : Expr → St → Except Err (Option (Expr × Bool) × St)
  | .const 0, st => .ok (some (.mac 9 [.const 1], true), st)
  | .const 1, st => .ok (some (.const 2, false), st)
  | .mac 9 l, st => .ok (some (.mac 9 l, false), st)
  | _, st => .ok (none, st)

/-- Post hook rewriting `const 0` to `const 1`, else nothing. -/
def postC4 : Expr → St → Except Err (Option (Expr × Bool) × St)
  | .const 0, st => .ok (some (.const 1, false), st)
  | _, st => .ok (none, st)

/-- Engine for the restart scenario: the only argument is classified
instance-implicit and the canonicalizer mutates once. -/
def cfgC1 : Cfg := ⟨100, false, funInfoOne, canonOnce, hookNone, hookAccept⟩

/-- Engine whose pre hook replaces `const 0` with continue = true. -/
def cfgC2 : Cfg := ⟨100, true, fun _ _ => [], canonId, preC2, hookNone⟩

/-- Engine with the chained post hook of the C3 scenario. -/
def cfgC3 : Cfg := ⟨100, true, fun _ _ => [], canonId, hookNone, postC3⟩

/-- Engine whose post hook simplifies the domain constant `const 0`. -/
def cfgC4 : Cfg := ⟨100, true, fun _ _ => [], canonId, hookNone, postC4⟩

/-- The core engine with its default hooks and an inert canonicalizer. -/
def cfgDefaults : Cfg := ⟨100, false, fun _ _ => [], canonId, hookNone, hookNone⟩

/-- Core engine defaults with step ceiling `N`. -/
def cfgCeil (n : Nat) : Cfg := ⟨n, true, fun _ _ => [], canonId, hookNone, hookNone⟩

/-- Sentinel-canonicalizer engines for the instance-implicit bypass. -/
def cfgC7 : Cfg := ⟨100, false, funInfoThree, canonSent, hookNone, hookAccept⟩

/-- Same with the mutation-reporting sentinel canonicalizer. -/
def cfgC7m : Cfg := ⟨100, false, funInfoThree, canonSentMut, hookNone, hookAccept⟩

/-- A rule set with the non-terminating cycle `const 0 ↔ const 1`, both
rules unconditional (refl). -/
def cycLemmas : Expr → Option (List SimpLemma)
  | .const 0 => some [⟨true, fun _ => .const 1⟩]
  | .const 1 => some [⟨true, fun _ => .const 0⟩]
  | _ => none

/-- A rule set chaining `const 10 → const 11 → const 12`, where the list
for `const 10` starts with a conditional (non-refl) rule that must be
skipped. -/
def lemChain : Expr → Option (List SimpLemma)
  | .const 10 => some [⟨false, fun x => x⟩, ⟨true, fun _ => .const 11⟩]
  | .const 11 => some [⟨true, fun _ => .const 12⟩]
  | _ => none

/-- C10: `pexpr_subst e1 e2` returns the body of `e1` instantiated with
`e2` when `e1` is a lambda, and returns `e1` itself, untouched by `e2`,
for every non-lambda `e1`; as a total function it never fails. -/
theorem pexpr_subst_spec (e1 e2 : Expr) :
    (isLambda e1 = true → pexpr_subst e1 e2 = instantiate1 (bindingBody e1) e2) ∧
    (isLambda e1 = false → pexpr_subst e1 e2 = e1) := by
  constructor <;> intro h <;> simp [pexpr_subst, h]

theorem pexpr_subst_spec_witness :
    pexpr_subst (.lam 0 .default (.const 1) (.var 0)) (.const 2)
        = instantiate1 (bindingBody (.lam 0 .default (.const 1) (.var 0))) (.const 2) ∧
    pexpr_subst (.pi 0 .default (.const 1) (.var 0)) (.const 2)
        = .pi 0 .default (.const 1) (.var 0) :=
  ⟨(pexpr_subst_spec (.lam 0 .default (.const 1) (.var 0)) (.const 2)).1 rfl,
   (pexpr_subst_spec (.pi 0 .default (.const 1) (.var 0)) (.const 2)).2 rfl⟩

/-- C1 (amended): at top level the engine runs the full visit; if the
restart flag is clear it returns that pass's result; if the flag was set,
the entire cache is discarded and the loop re-runs the visit on the
result `e'` of the pass just completed — not on the original root —
repeating until a pass completes with the flag clear. -/
theorem dsimplify_restart_protocol (rfuel vfuel : Nat) (cfg : Cfg) (e e' : Expr) (st st' : St)
    (h : visit vfuel cfg e {st with needRestart := false} = .ok (e', st')) :
    (st'.needRestart = false → dsimplify (rfuel+1) vfuel cfg e st = .ok (e', st')) ∧
    (st'.needRestart = true →
      dsimplify (rfuel+1) vfuel cfg e st
        = dsimplify rfuel vfuel cfg e' {st' with cache := []}) := by
  constructor <;> intro hr <;> simp [dsimplify, h, hr]

theorem dsimplify_restart_protocol_cex :
    (dsimplify 3 9 cfgC1 (.app (.const 0) (.const 1)) st0).map Prod.fst
        = .ok (.app (.const 0) (.const 99)) ∧
    (dsimplify_specC1 3 9 cfgC1 (.app (.const 0) (.const 1)) st0).map Prod.fst
        = .ok (.app (.const 0) (.const 1)) ∧
    (Expr.app (.const 0) (.const 99)) ≠ (Expr.app (.const 0) (.const 1)) :=
  ⟨by decide, by decide, by decide⟩

theorem dsimplify_restart_protocol_witness :
    dsimplify 1 9 cfgDefaults (.const 0) st0 = .ok (.const 0, ⟨[(.const 0, .const 0)], 1, false, 0, 0⟩) :=
  (dsimplify_restart_protocol 0 9 cfgDefaults (.const 0) (.const 0) st0
    ⟨[(.const 0, .const 0)], 1, false, 0, 0⟩ (by decide)).1 (by decide)

/-- C2 (amended): on a cache miss, a pre-hook answer `(r, false)` is
cached for `e` and returned with no child visited; a pre-hook answer
`(r, true)` is discarded — the engine recurses into the children of the
original `e` (the result does not depend on `r`). -/
theorem visit_pre_hook (fuel : Nat) (cfg : Cfg) (e r : Expr) (st st1 st2 : St)
    (hs : inc_num_steps cfg st = .ok st1)
    (hc : findCache st1.cache e = none) :
    (cfg.pre e st1 = .ok (some (r, false), st2) →
        visit (fuel+1) cfg e st = .ok (r, insertCache e r st2)) ∧
    (cfg.pre e st1 = .ok (some (r, true), st2) →
        visit (fuel+1) cfg e st =
          match post_loop (fun a s => visit fuel cfg a s) cfg fuel e st2 with
          | .error er => .error er
          | .ok (r', st3) => .ok (r', insertCache e r' st3)) := by
  constructor <;> intro hp <;> simp [visit, hs, hc, hp]

theorem visit_pre_hook_cex :
    (visit 9 cfgC2 (.const 0) st0).map Prod.fst = .ok (.const 0) ∧
    (visit_specC2 9 cfgC2 (.const 0) st0).map Prod.fst = .ok (.const 1) ∧
    (Expr.const 0) ≠ (Expr.const 1) :=
  ⟨by decide, by decide, by decide⟩

theorem visit_pre_hook_witness :
    visit 9 cfgC2 (.const 0) st0 =
      match post_loop (fun a s => visit 8 cfgC2 a s) cfgC2 8 (.const 0) ⟨[], 1, false, 0, 0⟩ with
      | .error er => .error er
      | .ok (r', st3) => .ok (r', insertCache (.const 0) r' st3) :=
  (visit_pre_hook 8 cfgC2 (.const 0) (.const 1) st0 ⟨[], 1, false, 0, 0⟩ ⟨[], 1, false, 0, 0⟩
    (by decide) (by decide)).2 (by decide)

/-- C3 (amended): when the post hook answers `(r, true)` on the node just
rebuilt by dispatch, the engine re-enters the whole loop at `r` — so it
re-dispatches on `r`, descending into `r`'s children (with memoization),
before the post hook is consulted again; `(r, false)` stops with `r`; and
`none` stops keeping the node from before that dispatch. -/
theorem post_loop_continue (v : Expr → St → Except Err (Expr × St)) (cfg : Cfg)
    (fuel : Nat) (curr newE r : Expr) (st st1 st2 : St)
    (hd : dispatch v cfg curr st = .ok (newE, st1)) :
    (cfg.post newE st1 = .ok (some (r, true), st2) →
        post_loop v cfg (fuel+1) curr st = post_loop v cfg fuel r st2) ∧
    (cfg.post newE st1 = .ok (some (r, false), st2) →
        post_loop v cfg (fuel+1) curr st = .ok (r, st2)) ∧
    (cfg.post newE st1 = .ok (none, st2) →
        post_loop v cfg (fuel+1) curr st = .ok (curr, st2)) := by
  refine ⟨?_, ?_, ?_⟩ <;> intro hp <;> simp [post_loop, hd, hp]

theorem post_loop_continue_cex :
    (visit 9 cfgC3 (.const 0) st0).map Prod.fst = .ok (.mac 9 [.const 2]) ∧
    (visit_specC3 9 cfgC3 (.const 0) st0).map Prod.fst = .ok (.mac 9 [.const 1]) ∧
    (Expr.mac 9 [.const 2]) ≠ (Expr.mac 9 [.const 1]) :=
  ⟨by decide, by decide, by decide⟩

theorem post_loop_continue_witness :
    post_loop (fun a s => visit 5 cfgC3 a s) cfgC3 7 (.const 0) st0
      = post_loop (fun a s => visit 5 cfgC3 a s) cfgC3 6 (.mac 9 [.const 1]) st0 :=
  (post_loop_continue (fun a s => visit 5 cfgC3 a s) cfgC3 6 (.const 0) (.const 0)
    (.mac 9 [.const 1]) st0 st0 st0 (by decide)).1 (by decide)

mutual

theorem instantiateCore_nil : ∀ (ofs : Nat) (e : Expr), instantiateCore [] ofs e = e
  | _, .var i => by simp [instantiateCore]
  | ofs, .lconst id nm ty bi => by simp [instantiateCore, instantiateCore_nil ofs ty]
  | ofs, .mvar id ty => by simp [instantiateCore, instantiateCore_nil ofs ty]
  | _, .sort l => by simp [instantiateCore]
  | _, .const n => by simp [instantiateCore]
  | ofs, .app f a => by simp [instantiateCore, instantiateCore_nil ofs f, instantiateCore_nil ofs a]
  | ofs, .lam nm bi d b => by
      simp [instantiateCore, instantiateCore_nil ofs d, instantiateCore_nil (ofs+1) b]
  | ofs, .pi nm bi d b => by
      simp [instantiateCore, instantiateCore_nil ofs d, instantiateCore_nil (ofs+1) b]
  | ofs, .elet nm t v b => by
      simp [instantiateCore, instantiateCore_nil ofs t, instantiateCore_nil ofs v,
        instantiateCore_nil (ofs+1) b]
  | ofs, .mac t args => by simp [instantiateCore, instantiateCoreList_nil ofs args]

theorem instantiateCoreList_nil : ∀ (ofs : Nat) (es : List Expr), instantiateCoreList [] ofs es = es
  | _, [] => by simp [instantiateCoreList]
  | ofs, e :: es => by
      simp [instantiateCoreList, instantiateCore_nil ofs e, instantiateCoreList_nil ofs es]

end

theorem instantiate_rev_nil (e : Expr) : instantiate_rev e [] = e :=
  instantiateCore_nil 0 e

mutual

theorem abstractLocals_nil : ∀ (d : Nat) (e : Expr), abstractLocals [] d e = e
  | _, .var i => by simp [abstractLocals]
  | d, .lconst id nm ty bi => by simp [abstractLocals, locIdx, abstractLocals_nil d ty]
  | d, .mvar id ty => by simp [abstractLocals, abstractLocals_nil d ty]
  | _, .sort l => by simp [abstractLocals]
  | _, .const n => by simp [abstractLocals]
  | d, .app f a => by simp [abstractLocals, abstractLocals_nil d f, abstractLocals_nil d a]
  | d, .lam nm bi dd b => by
      simp [abstractLocals, abstractLocals_nil d dd, abstractLocals_nil (d+1) b]
  | d, .pi nm bi dd b => by
      simp [abstractLocals, abstractLocals_nil d dd, abstractLocals_nil (d+1) b]
  | d, .elet nm t v b => by
      simp [abstractLocals, abstractLocals_nil d t, abstractLocals_nil d v,
        abstractLocals_nil (d+1) b]
  | d, .mac t args => by simp [abstractLocals, abstractLocalsList_nil d args]

theorem abstractLocalsList_nil : ∀ (d : Nat) (es : List Expr), abstractLocalsList [] d es = es
  | _, [] => by simp [abstractLocalsList]
  | d, e :: es => by
      simp [abstractLocalsList, abstractLocals_nil d e, abstractLocalsList_nil d es]

end

theorem visit_bindingFinish_mono (v : Expr → St → Except Err (Expr × St)) (b : Expr)
    (locals : List Expr) (st : St) (x : Expr × Bool × List Expr × St)
    (h : visit_bindingFinish v b locals true st = .ok x) : x.2.1 = true := by
  cases hvb : v (instantiate_rev b locals) st with
  | error er => simp [visit_bindingFinish, hvb] at h
  | ok p =>
      obtain ⟨newB, st1⟩ := p
      simp [visit_bindingFinish, hvb] at h
      obtain rfl := h.symm
      rfl

theorem visit_bindingAux_mono (v : Expr → St → Except Err (Expr × St)) :
    ∀ (b : Expr) (isPi : Bool) (locals : List Expr) (st : St)
      (x : Expr × Bool × List Expr × St),
      visit_bindingAux v isPi b locals true st = .ok x → x.2.1 = true
  | .lam nm bi d bd, isPi, locals, st, x => by
      intro h
      cases isPi with
      | true => exact visit_bindingFinish_mono v _ locals st x h
      | false =>
          cases hvd : v (instantiate_rev d locals) st with
          | error er => simp [visit_bindingAux, hvd] at h
          | ok p =>
              obtain ⟨newD, st1⟩ := p
              simp only [visit_bindingAux, hvd, Bool.false_eq_true, if_false, Bool.true_or] at h
              exact visit_bindingAux_mono v bd false _ _ x h
  | .pi nm bi d bd, isPi, locals, st, x => by
      intro h
      cases isPi with
      | false => exact visit_bindingFinish_mono v _ locals st x h
      | true =>
          cases hvd : v (instantiate_rev d locals) st with
          | error er => simp [visit_bindingAux, hvd] at h
          | ok p =>
              obtain ⟨newD, st1⟩ := p
              simp only [visit_bindingAux, hvd, if_true, Bool.true_or] at h
              exact visit_bindingAux_mono v bd true _ _ x h
  | .var i, isPi, locals, st, x => fun h => visit_bindingFinish_mono v _ locals st x h
  | .lconst id nm ty bi, isPi, locals, st, x => fun h =>
      visit_bindingFinish_mono v _ locals st x h
  | .mvar id ty, isPi, locals, st, x => fun h => visit_bindingFinish_mono v _ locals st x h
  | .sort l, isPi, locals, st, x => fun h => visit_bindingFinish_mono v _ locals st x h
  | .const n, isPi, locals, st, x => fun h => visit_bindingFinish_mono v _ locals st x h
  | .app f a, isPi, locals, st, x => fun h => visit_bindingFinish_mono v _ locals st x h
  | .elet nm t vl bd, isPi, locals, st, x => fun h =>
      visit_bindingFinish_mono v _ locals st x h
  | .mac tag args, isPi, locals, st, x => fun h => visit_bindingFinish_mono v _ locals st x h

theorem visit_bindingFinish_id (v : Expr → St → Except Err (Expr × St))
    (hid : ∀ a s r s', v a s = .ok (r, s') → r = a) (b : Expr) (locals : List Expr)
    (modified : Bool) (st : St) (x : Expr × Bool × List Expr × St)
    (h : visit_bindingFinish v b locals modified st = .ok x) : x.2.1 = modified := by
  cases hvb : v (instantiate_rev b locals) st with
  | error er => simp [visit_bindingFinish, hvb] at h
  | ok p =>
      obtain ⟨newB, st1⟩ := p
      have hnb : newB = instantiate_rev b locals := hid _ _ _ _ hvb
      subst hnb
      simp [visit_bindingFinish, hvb] at h
      obtain rfl := h.symm
      rfl

theorem visit_bindingAux_id (v : Expr → St → Except Err (Expr × St))
    (hid : ∀ a s r s', v a s = .ok (r, s') → r = a) :
    ∀ (b : Expr) (isPi : Bool) (locals : List Expr) (modified : Bool) (st : St)
      (x : Expr × Bool × List Expr × St),
      visit_bindingAux v isPi b locals modified st = .ok x → x.2.1 = modified
  | .lam nm bi d bd, isPi, locals, modified, st, x => by
      intro h
      cases isPi with
      | true => exact visit_bindingFinish_id v hid _ locals modified st x h
      | false =>
          cases hvd : v (instantiate_rev d locals) st with
          | error er => simp [visit_bindingAux, hvd] at h
          | ok p =>
              obtain ⟨newD, st1⟩ := p
              have hnd : newD = instantiate_rev d locals := hid _ _ _ _ hvd
              subst hnd
              simp [visit_bindingAux, hvd] at h
              exact visit_bindingAux_id v hid bd false _ modified _ x h
  | .pi nm bi d bd, isPi, locals, modified, st, x => by
      intro h
      cases isPi with
      | false => exact visit_bindingFinish_id v hid _ locals modified st x h
      | true =>
          cases hvd : v (instantiate_rev d locals) st with
          | error er => simp [visit_bindingAux, hvd] at h
          | ok p =>
              obtain ⟨newD, st1⟩ := p
              have hnd : newD = instantiate_rev d locals := hid _ _ _ _ hvd
              subst hnd
              simp [visit_bindingAux, hvd] at h
              exact visit_bindingAux_id v hid bd true _ modified _ x h
  | .var i, isPi, locals, modified, st, x => fun h =>
      visit_bindingFinish_id v hid _ locals modified st x h
  | .lconst id nm ty bi, isPi, locals, modified, st, x => fun h =>
      visit_bindingFinish_id v hid _ locals modified st x h
  | .mvar id ty, isPi, locals, modified, st, x => fun h =>
      visit_bindingFinish_id v hid _ locals modified st x h
  | .sort l, isPi, locals, modified, st, x => fun h =>
      visit_bindingFinish_id v hid _ locals modified st x h
  | .const n, isPi, locals, modified, st, x => fun h =>
      visit_bindingFinish_id v hid _ locals modified st x h
  | .app f a, isPi, locals, modified, st, x => fun h =>
      visit_bindingFinish_id v hid _ locals modified st x h
  | .elet nm t vl bd, isPi, locals, modified, st, x => fun h =>
      visit_bindingFinish_id v hid _ locals modified st x h
  | .mac tag args, isPi, locals, modified, st, x => fun h =>
      visit_bindingFinish_id v hid _ locals modified st x h

/-- C4 (amended): on a Lambda or Pi binder chain, at every step of the
chain — either kind, any frame built so far, any accumulated change flag
— the domain is instantiated against the frame, visited, and the fresh
local pushed carries the visited (simplified) domain `new_d`, the flag
picking up whether that domain changed; the chain ends at the first node
of the other kind, where the instantiated body is visited and the flag
picks up whether it changed; the walk rebuilds the binder from the frame
(hence with the simplified domains) exactly when the flag is set and
returns the original node otherwise — the flag is never cleared once
set, and under a change-free visitor the original node is always
returned; a two-binder Pi chain concretely pushes locals typed with the
visited domains and is rebuilt with the simplified domain. -/
theorem visit_binding_pushes_new_d :
    (∀ (v : Expr → St → Except Err (Expr × St)) (isPi : Bool) (nm : Nat) (bi : BInfo)
        (d bd : Expr) (locals : List Expr) (modified : Bool) (st : St) (newD : Expr) (st1 : St),
        v (instantiate_rev d locals) st = .ok (newD, st1) →
        visit_bindingAux v isPi (mkB isPi nm bi d bd) locals modified st
          = visit_bindingAux v isPi bd (locals ++ [Expr.lconst st1.nextId nm newD bi])
              (modified || decide (instantiate_rev d locals ≠ newD))
              {st1 with nextId := st1.nextId + 1}) ∧
    (∀ (v : Expr → St → Except Err (Expr × St)) (isPi : Bool) (b : Expr)
        (locals : List Expr) (modified : Bool) (st : St),
        (if isPi then isPiKind b else isLambda b) = false →
        visit_bindingAux v isPi b locals modified st
          = visit_bindingFinish v b locals modified st) ∧
    (∀ (v : Expr → St → Except Err (Expr × St)) (b : Expr) (locals : List Expr)
        (modified : Bool) (st : St) (newB : Expr) (st1 : St),
        v (instantiate_rev b locals) st = .ok (newB, st1) →
        visit_bindingFinish v b locals modified st
          = .ok (newB, modified || decide (instantiate_rev b locals ≠ newB), locals, st1)) ∧
    (∀ (v : Expr → St → Except Err (Expr × St)) (e : Expr) (st : St) (newB : Expr)
        (modified : Bool) (locals : List Expr) (st1 : St),
        visit_bindingAux v (isPiKind e) e [] false st = .ok (newB, modified, locals, st1) →
        visit_binding v e st
          = .ok (if modified then mkBindingFromLocals (isPiKind e) locals newB else e, st1)) ∧
    (∀ (v : Expr → St → Except Err (Expr × St)) (isPi : Bool) (b : Expr)
        (locals : List Expr) (st : St) (x : Expr × Bool × List Expr × St),
        visit_bindingAux v isPi b locals true st = .ok x → x.2.1 = true) ∧
    (∀ (v : Expr → St → Except Err (Expr × St)),
        (∀ a s r s', v a s = .ok (r, s') → r = a) →
        ∀ (e : Expr) (st : St) (r : Expr) (st' : St),
          visit_binding v e st = .ok (r, st') → r = e) ∧
    ((visit_binding (fun a s => visit 9 cfgC4 a s)
        (.pi 7 .default (.const 0) (.pi 8 .default (.var 0) (.var 1))) st0).map Prod.fst
      = .ok (.pi 7 .default (.const 1) (.pi 8 .default (.var 0) (.var 1)))) ∧
    ((visit_bindingAux (fun a s => visit 9 cfgC4 a s) true
        (.pi 7 .default (.const 0) (.pi 8 .default (.var 0) (.var 1))) [] false st0).map
          (fun x => x.2.2.1)
      = .ok [.lconst 0 7 (.const 1) .default,
             .lconst 1 8 (.lconst 0 7 (.const 1) .default) .default]) := by
  refine ⟨?_, ?_, ?_, ?_, ?_, ?_, by decide, by decide⟩
  · intro v isPi nm bi d bd locals modified st newD st1 hvd
    cases isPi <;> simp [mkB, visit_bindingAux, hvd]
  · intro v isPi b locals modified st hb
    cases isPi <;> cases b <;> simp_all [isPiKind, isLambda, visit_bindingAux]
  · intro v b locals modified st newB st1 hvb
    simp [visit_bindingFinish, hvb]
  · intro v e st newB modified locals st1 h
    simp [visit_binding, h]
  · exact fun v isPi b locals st x h => visit_bindingAux_mono v b isPi locals st x h
  · intro v hid e st r st' h
    cases haux : visit_bindingAux v (isPiKind e) e [] false st with
    | error er => simp [visit_binding, haux] at h
    | ok q =>
        obtain ⟨newB, modified, locals, st1⟩ := q
        have hm : modified = false := visit_bindingAux_id v hid e (isPiKind e) [] false st _ haux
        subst hm
        simp [visit_binding, haux] at h
        exact h.1.symm

theorem visit_binding_pushes_new_d_cex :
    (visit_binding (fun a s => visit 9 cfgC4 a s) (.lam 7 .default (.const 0) (.var 0)) st0).map
        Prod.fst = .ok (.lam 7 .default (.const 1) (.var 0)) ∧
    (visit_binding_specC4 (fun a s => visit 9 cfgC4 a s)
        (.lam 7 .default (.const 0) (.var 0)) st0).map Prod.fst
        = .ok (.lam 7 .default (.const 0) (.var 0)) ∧
    (visit_bindingAux (fun a s => visit 9 cfgC4 a s) false
        (.lam 7 .default (.const 0) (.var 0)) [] false st0).map (fun x => x.2.2.1)
        = .ok [.lconst 0 7 (.const 1) .default] ∧
    (Expr.lam 7 .default (.const 1) (.var 0)) ≠ (Expr.lam 7 .default (.const 0) (.var 0)) :=
  ⟨by decide, by decide, by decide, by decide⟩

theorem visit_binding_pushes_new_d_witness :
    (visit_bindingAux (fun a s => visit 9 cfgC4 a s) false
        (.lam 7 .default (.const 0) (.var 0)) [] false st0
      = visit_bindingAux (fun a s => visit 9 cfgC4 a s) false (.var 0)
          [Expr.lconst 0 7 (.const 1) .default] true
          ⟨[(.const 0, .const 1)], 1, false, 1, 0⟩) ∧
    (Expr.pi 7 .default (.const 0) (.var 0)) = (Expr.pi 7 .default (.const 0) (.var 0)) :=
  ⟨(visit_binding_pushes_new_d).1 (fun a s => visit 9 cfgC4 a s) false 7 .default
      (.const 0) (.var 0) [] false st0 (.const 1) ⟨[(.const 0, .const 1)], 1, false, 0, 0⟩
      (by decide),
   (visit_binding_pushes_new_d).2.2.2.2.2.1 (fun (a : Expr) (s : St) => .ok (a, s))
      (fun a s r s' h => by cases h; rfl) (.pi 7 .default (.const 0) (.var 0)) st0
      (.pi 7 .default (.const 0) (.var 0)) ⟨[], 0, false, 1, 0⟩ (by decide)⟩

theorem inc_num_steps_ok (cfg : Cfg) (st : St) (h : st.numSteps < cfg.maxSteps) :
    inc_num_steps cfg st = .ok {st with numSteps := st.numSteps + 1} := by
  rw [inc_num_steps, if_neg (by omega)]

theorem inc_num_steps_err (cfg : Cfg) (st : St) (h : cfg.maxSteps ≤ st.numSteps) :
    inc_num_steps cfg st = .error .maxSteps := by
  rw [inc_num_steps, if_pos (by omega)]

theorem dsimp_post_loop_step (lem : Expr → Option (List SimpLemma)) (cfg : Cfg) (fuel : Nat)
    (curr : Expr) (st st1 : St) (ls : List SimpLemma)
    (hs : inc_num_steps cfg st = .ok st1) (hl : lem curr = some ls)
    (hne : applyFirstRefl ls curr ≠ curr) :
    dsimp_post_loop lem cfg (fuel+1) curr st
      = dsimp_post_loop lem cfg fuel (applyFirstRefl ls curr) st1 := by
  simp only [dsimp_post_loop, hs, hl]
  rw [if_neg hne]

theorem dsimp_cyc_maxSteps (n : Nat) :
    ∀ (j : Nat) (curr : Expr) (st : St), (curr = .const 0 ∨ curr = .const 1) →
      st.numSteps + j = n →
      dsimp_post_loop cycLemmas (cfgCeil n) (j+1) curr st = .error .maxSteps := by
  intro j
  induction j with
  | zero =>
      intro curr st hc hs
      have hierr := inc_num_steps_err (cfgCeil n) st (by simp [cfgCeil]; omega)
      rcases hc with rfl | rfl <;> simp [dsimp_post_loop, hierr]
  | succ j ih =>
      intro curr st hc hs
      have hstep := inc_num_steps_ok (cfgCeil n) st (by simp [cfgCeil]; omega)
      rcases hc with rfl | rfl
      · rw [dsimp_post_loop_step cycLemmas (cfgCeil n) (j+1) (.const 0) st _ _ hstep rfl
          (by decide)]
        exact ih _ _ (Or.inr rfl) (by simp; omega)
      · rw [dsimp_post_loop_step cycLemmas (cfgCeil n) (j+1) (.const 1) st _ _ hstep rfl
          (by decide)]
        exact ih _ _ (Or.inl rfl) (by simp; omega)

theorem dsimp_cyc_outOfFuel (n : Nat) :
    ∀ (j : Nat) (curr : Expr) (st : St), (curr = .const 0 ∨ curr = .const 1) →
      st.numSteps + j ≤ n →
      dsimp_post_loop cycLemmas (cfgCeil n) j curr st = .error .outOfFuel := by
  intro j
  induction j with
  | zero => intro curr st hc hs; rcases hc with rfl | rfl <;> simp [dsimp_post_loop]
  | succ j ih =>
      intro curr st hc hs
      have hstep := inc_num_steps_ok (cfgCeil n) st (by simp [cfgCeil]; omega)
      rcases hc with rfl | rfl
      · rw [dsimp_post_loop_step cycLemmas (cfgCeil n) j (.const 0) st _ _ hstep rfl
          (by decide)]
        exact ih _ _ (Or.inr rfl) (by simp; omega)
      · rw [dsimp_post_loop_step cycLemmas (cfgCeil n) j (.const 1) st _ _ hstep rfl
          (by decide)]
        exact ih _ _ (Or.inl rfl) (by simp; omega)

/-- C6: every rule-application attempt of the fixed-point applicator
counts one step, so a cycling unconditional rule set under ceiling `n`
fails with the resource-exhaustion error on the attempt after `n`
accounted steps (and with only `n` loop iterations available no such
error has occurred yet); the error propagates out of the top-level
restart loop unchanged; `inc_num_steps` fails exactly when the counter
would exceed the ceiling; and a node visit accounts exactly one step of
its own — it fails immediately at the ceiling, and a leaf visit from a
fresh state ends with counter 1. -/
theorem step_ceiling (n : Nat) :
    (dsimp_post_loop cycLemmas (cfgCeil n) (n+1) (.const 0) st0 = .error .maxSteps) ∧
    (dsimp_post_loop cycLemmas (cfgCeil n) n (.const 0) st0 = .error .outOfFuel) ∧
    (∀ rfuel vfuel cfg (e : Expr) (st : St) er,
        visit vfuel cfg e {st with needRestart := false} = .error er →
        dsimplify (rfuel+1) vfuel cfg e st = .error er) ∧
    (∀ cfg (st : St),
        (st.numSteps < cfg.maxSteps →
          inc_num_steps cfg st = .ok {st with numSteps := st.numSteps + 1}) ∧
        (cfg.maxSteps ≤ st.numSteps → inc_num_steps cfg st = .error .maxSteps)) ∧
    (∀ fuel cfg (e : Expr) (st : St), cfg.maxSteps ≤ st.numSteps →
        visit (fuel+1) cfg e st = .error .maxSteps) ∧
    (∀ (k : Nat), (visit 2 cfgDefaults (.const k) st0).map (fun p => p.2.numSteps)
        = .ok 1) := by
  refine ⟨?_, ?_, ?_, ?_, ?_, ?_⟩
  · exact dsimp_cyc_maxSteps n n (.const 0) st0 (Or.inl rfl) (by simp [st0])
  · exact dsimp_cyc_outOfFuel n n (.const 0) st0 (Or.inl rfl) (by simp [st0])
  · intro rfuel vfuel cfg e st er h; simp [dsimplify, h]
  · intro cfg st
    constructor <;> intro h
    · rw [inc_num_steps, if_neg (by omega)]
    · rw [inc_num_steps, if_pos (by omega)]
  · intro fuel cfg e st h
    simp [visit, inc_num_steps_err cfg st h]
  · intro k
    rfl

theorem step_ceiling_witness :
    dsimp_post_loop cycLemmas (cfgCeil 2) 3 (.const 0) st0 = .error .maxSteps ∧
    dsimp_post_loop cycLemmas (cfgCeil 2) 2 (.const 0) st0 = .error .outOfFuel ∧
    dsimplify 1 1 (cfgCeil 0) (.const 0) st0 = .error .maxSteps ∧
    visit 1 (cfgCeil 0) (.const 7) st0 = .error .maxSteps :=
  ⟨(step_ceiling 2).1, (step_ceiling 2).2.1,
   (step_ceiling 0).2.2.1 0 1 (cfgCeil 0) (.const 0) st0 .maxSteps (by decide),
   (step_ceiling 0).2.2.2.2.1 0 (cfgCeil 0) (.const 7) st0 (by decide)⟩

theorem cons_mod_iff (x a : Expr) (xs as : List Expr) (m1 : Bool)
    (hiff : m1 = true ↔ xs ≠ as) :
    ((!decide (x = a) || m1) = true ↔ x :: xs ≠ a :: as) := by
  by_cases h1 : x = a <;> by_cases h2 : xs = as <;> simp [h1, h2, hiff]

theorem visit_app_args_modified (v : Expr → St → Except Err (Expr × St)) (cfg : Cfg) :
    ∀ (as : List Expr) (ps : List Bool) (st : St) (nas : List Expr) (m : Bool) (st' : St),
      visit_app_args v cfg ps as st = .ok (nas, m, st') →
      nas.length = as.length ∧ (m = true ↔ nas ≠ as) := by
  intro as
  induction as with
  | nil =>
      intro ps st nas m st' h
      simp [visit_app_args] at h
      obtain ⟨rfl, rfl, rfl⟩ := h
      simp
  | cons a as ih =>
      intro ps st nas m st' h
      cases ps with
      | nil =>
          cases hva : v a st with
          | error er => simp [visit_app_args, hva] at h
          | ok p =>
              obtain ⟨na, st1⟩ := p
              cases hrec : visit_app_args v cfg [] as st1 with
              | error er => simp [visit_app_args, hva, hrec] at h
              | ok q =>
                  obtain ⟨nas1, m1, st2⟩ := q
                  simp [visit_app_args, hva, hrec] at h
                  obtain ⟨rfl, rfl, rfl⟩ := h
                  obtain ⟨hlen, hiff⟩ := ih [] st1 nas1 m1 st2 hrec
                  exact ⟨by simp [hlen], cons_mod_iff na a nas1 as m1 hiff⟩
      | cons p ps =>
          cases p with
          | false =>
              cases hva : v a st with
              | error er => simp [visit_app_args, hva] at h
              | ok q0 =>
                  obtain ⟨na, st1⟩ := q0
                  cases hrec : visit_app_args v cfg ps as st1 with
                  | error er => simp [visit_app_args, hva, hrec] at h
                  | ok q =>
                      obtain ⟨nas1, m1, st2⟩ := q
                      simp [visit_app_args, hva, hrec] at h
                      obtain ⟨rfl, rfl, rfl⟩ := h
                      obtain ⟨hlen, hiff⟩ := ih ps st1 nas1 m1 st2 hrec
                      exact ⟨by simp [hlen], cons_mod_iff na a nas1 as m1 hiff⟩
          | true =>
              cases hrec : visit_app_args v cfg ps as
                  {st with needRestart := st.needRestart || (cfg.canon st.canonState a).2.1,
                           canonState := (cfg.canon st.canonState a).2.2} with
              | error er => simp [visit_app_args, hrec] at h
              | ok q =>
                  obtain ⟨nas1, m1, st2⟩ := q
                  simp [visit_app_args, hrec] at h
                  obtain ⟨rfl, rfl, rfl⟩ := h
                  obtain ⟨hlen, hiff⟩ := ih ps _ nas1 m1 st2 hrec
                  exact ⟨by simp [hlen], cons_mod_iff _ a nas1 as m1 hiff⟩

theorem visit_app_args_nil_pinfos (v : Expr → St → Except Err (Expr × St)) (cfg : Cfg) :
    ∀ (as : List Expr) (st : St),
      (visit_app_args v cfg [] as st).map (fun x => (x.1, x.2.2)) = visit_list v as st := by
  intro as
  induction as with
  | nil => intro st; simp [visit_app_args, visit_list, Except.map]
  | cons a as ih =>
      intro st
      cases hva : v a st with
      | error er => simp [visit_app_args, visit_list, hva, Except.map]
      | ok p =>
          obtain ⟨na, st1⟩ := p
          simp only [visit_app_args, visit_list, hva]
          rw [← ih st1]
          cases hrec : visit_app_args v cfg [] as st1 with
          | error er => simp [hrec, Except.map]
          | ok q => obtain ⟨nas1, m1, st2⟩ := q; simp [hrec, Except.map]

theorem visit_app_args_all_inst (v : Expr → St → Except Err (Expr × St)) (cfg : Cfg) :
    ∀ (as : List Expr) (st : St),
      visit_app_args v cfg (List.replicate as.length true) as st =
        .ok ((canonFold cfg as st.canonState).1,
             decide ((canonFold cfg as st.canonState).1 ≠ as),
             {st with needRestart := st.needRestart || (canonFold cfg as st.canonState).2.1,
                      canonState := (canonFold cfg as st.canonState).2.2}) := by
  intro as
  induction as with
  | nil => intro st; simp [visit_app_args, canonFold]
  | cons a as ih =>
      intro st
      simp only [List.length_cons, List.replicate_succ, visit_app_args, canonFold, ih]
      by_cases h1 : (cfg.canon st.canonState a).1 = a <;>
        by_cases h2 : (canonFold cfg as (cfg.canon st.canonState a).2.2).1 = as <;>
        simp [h1, h2, Bool.or_assoc]

/-- C7: with visit-instances disabled, every argument position the
classifier reports instance-implicit is sent to the canonicalizer — no
recursive visit, no step, the restart flag accumulating the mutation
reports — while the positions reported otherwise, and the positions
beyond the classifier's report, are recursively visited exactly as a
plain child list; the node is rebuilt only if some argument changed,
otherwise the original node is returned. -/
theorem visit_app_inst_bypass :
    (∀ (v : Expr → St → Except Err (Expr × St)) (cfg : Cfg) (e : Expr) (st : St) r st',
        visit_app v cfg e st = .ok (r, st') →
        (r = e ∨ ∃ nas, nas ≠ (getAppArgs e).2 ∧ nas.length = (getAppArgs e).2.length ∧
            r = mkAppL (getAppArgs e).1 nas)) ∧
    (∀ (v : Expr → St → Except Err (Expr × St)) (cfg : Cfg) (as : List Expr) (st : St),
        visit_app_args v cfg (List.replicate as.length true) as st =
          .ok ((canonFold cfg as st.canonState).1,
               decide ((canonFold cfg as st.canonState).1 ≠ as),
               {st with needRestart := st.needRestart || (canonFold cfg as st.canonState).2.1,
                        canonState := (canonFold cfg as st.canonState).2.2})) ∧
    (∀ (v : Expr → St → Except Err (Expr × St)) (cfg : Cfg) (as : List Expr) (st : St),
        (visit_app_args v cfg [] as st).map (fun x => (x.1, x.2.2)) = visit_list v as st) ∧
    ((visit_app (fun a s => visit 9 cfgC7 a s) cfgC7
        (mkAppL (.const 0) [.const 1, .const 2, .const 3]) st0).map Prod.fst
      = .ok (mkAppL (.const 0) [.const 1, .const 5, .const 3])) ∧
    ((visit_app (fun a s => visit 9 cfgC7m a s) cfgC7m
        (mkAppL (.const 0) [.const 1, .const 2, .const 3]) st0).map
          (fun x => x.2.needRestart) = .ok true) := by
  refine ⟨?_, ?_, ?_, by decide, by decide⟩
  · intro v cfg e st r st' h
    rw [visit_app] at h
    cases haa : visit_app_args v cfg
        (if cfg.visitInstances then [] else cfg.funInfo (getAppArgs e).1 (getAppArgs e).2.length)
        (getAppArgs e).2 st with
    | error er => rw [haa] at h; cases h
    | ok q =>
        obtain ⟨nas, m, st1⟩ := q
        rw [haa] at h
        obtain ⟨hlen, hiff⟩ := visit_app_args_modified v cfg _ _ _ _ _ _ haa
        cases m with
        | false => simp at h; obtain ⟨rfl, rfl⟩ := h; exact Or.inl rfl
        | true =>
            simp at h
            obtain ⟨rfl, rfl⟩ := h
            exact Or.inr ⟨nas, hiff.mp rfl, hlen, rfl⟩
  · exact fun v cfg as st => visit_app_args_all_inst v cfg as st
  · exact fun v cfg as st => visit_app_args_nil_pinfos v cfg as st

theorem visit_app_inst_bypass_witness :
    ((mkAppL (.const 0) [.const 1, .const 5, .const 3])
        = (mkAppL (.const 0) [.const 1, .const 2, .const 3]) ∨
      ∃ nas, nas ≠ (getAppArgs (mkAppL (.const 0) [.const 1, .const 2, .const 3])).2 ∧
        nas.length = (getAppArgs (mkAppL (.const 0) [.const 1, .const 2, .const 3])).2.length ∧
        mkAppL (.const 0) [.const 1, .const 5, .const 3]
          = mkAppL (getAppArgs (mkAppL (.const 0) [.const 1, .const 2, .const 3])).1 nas) :=
  (visit_app_inst_bypass).1 (fun a s => visit 9 cfgC7 a s) cfgC7
    (mkAppL (.const 0) [.const 1, .const 2, .const 3]) st0
    (mkAppL (.const 0) [.const 1, .const 5, .const 3])
    ⟨[(.const 3, .const 3), (.const 1, .const 1)], 2, false, 0, 0⟩ (by decide)

theorem applyFirstRefl_find (ls : List SimpLemma) (e : Expr) :
    applyFirstRefl ls e = (match ls.find? (fun sl => sl.isRefl) with
      | some sl => sl.rw e
      | none => e) := by
  induction ls with
  | nil => simp [applyFirstRefl, List.find?]
  | cons sl ls ih => cases h : sl.isRefl <;> simp [applyFirstRefl, List.find?, h, ih]

/-- C8: the fixed-point applicator's post hook applies, at each pass of
its loop, only the first unconditional (refl) rule among the candidates
the lookup returns — an all-conditional candidate list changes nothing —
restarting the lookup on each changed node at the cost of one step, and
it answers nothing exactly when the node after the loop is the node it
was given, otherwise the final node paired with continue = true. -/
theorem dsimp_post_applies_first_refl :
    (∀ (ls : List SimpLemma) (e : Expr),
        applyFirstRefl ls e = (match ls.find? (fun sl => sl.isRefl) with
          | some sl => sl.rw e
          | none => e)) ∧
    (∀ (ls : List SimpLemma) (e : Expr), (∀ sl ∈ ls, sl.isRefl = false) →
        applyFirstRefl ls e = e) ∧
    (∀ (lem : Expr → Option (List SimpLemma)) (cfg : Cfg) (fuel : Nat) (curr : Expr)
        (st st1 : St) (ls : List SimpLemma),
        inc_num_steps cfg st = .ok st1 → lem curr = some ls →
        applyFirstRefl ls curr ≠ curr →
        dsimp_post_loop lem cfg (fuel+1) curr st
          = dsimp_post_loop lem cfg fuel (applyFirstRefl ls curr) st1) ∧
    (∀ (lem : Expr → Option (List SimpLemma)) (cfg : Cfg) (fuel : Nat) (e : Expr) (st : St)
        res st',
        dsimp_post lem cfg fuel e st = .ok (res, st') →
        ((res = none ↔ dsimp_post_loop lem cfg fuel e st = .ok (e, st')) ∧
         (∀ c b, res = some (c, b) →
            b = true ∧ c ≠ e ∧ dsimp_post_loop lem cfg fuel e st = .ok (c, st')))) := by
  refine ⟨applyFirstRefl_find, ?_, ?_, ?_⟩
  · intro ls e h
    rw [applyFirstRefl_find]
    have hnone : ls.find? (fun sl => sl.isRefl) = none :=
      List.find?_eq_none.mpr (fun x hx => by simp [h x hx])
    rw [hnone]
  · exact fun lem cfg fuel curr st st1 ls hs hl hne =>
      dsimp_post_loop_step lem cfg fuel curr st st1 ls hs hl hne
  · intro lem cfg fuel e st res st' h
    simp only [dsimp_post] at h
    cases hloop : dsimp_post_loop lem cfg fuel e st with
    | error er => rw [hloop] at h; cases h
    | ok q =>
        obtain ⟨curr, st1⟩ := q
        rw [hloop] at h
        have h' : (if curr = e then (Except.ok (none, st1) : Except Err (Option (Expr × Bool) × St))
            else Except.ok (some (curr, true), st1)) = Except.ok (res, st') := h
        by_cases hce : curr = e
        · rw [if_pos hce] at h'
          cases h'
          exact ⟨by simp [hce], fun c b hcb => by cases hcb⟩
        · rw [if_neg hce] at h'
          cases h'
          constructor
          · constructor
            · intro hk; cases hk
            · intro hk
              injection hk with hk1
              exact absurd (congrArg Prod.fst hk1) hce
          · intro c b hcb
            cases hcb
            exact ⟨rfl, hce, rfl⟩

theorem dsimp_post_applies_first_refl_witness :
    dsimp_post_loop lemChain (cfgCeil 50) 9 (.const 10) st0
      = dsimp_post_loop lemChain (cfgCeil 50) 8
          (applyFirstRefl [⟨false, fun x => x⟩, ⟨true, fun _ => .const 11⟩] (.const 10))
          ⟨[], 1, false, 0, 0⟩ ∧
    applyFirstRefl [⟨false, fun x => x⟩] (.const 10) = .const 10 :=
  ⟨(dsimp_post_applies_first_refl).2.2.1 lemChain (cfgCeil 50) 8 (.const 10) st0
      ⟨[], 1, false, 0, 0⟩ _ (by decide) rfl (by decide),
   (dsimp_post_applies_first_refl).2.1 [⟨false, fun x => x⟩] (.const 10)
      (by intro sl hsl; rcases List.mem_singleton.mp hsl with rfl; rfl)⟩

/-- The hooks are the defaults of the core engine: both answer nothing
and leave the state untouched. -/
def IsDefaultHooks (cfg : Cfg) : Prop :=
  (∀ e st, cfg.pre e st = .ok (none, st)) ∧ (∀ e st, cfg.post e st = .ok (none, st))

/-- Every cache entry maps an expression to itself. -/
def CacheId (c : List (Expr × Expr)) : Prop := ∀ p ∈ c, p.2 = p.1

/-- The visitor `v` preserves the cache-identity invariant. -/
def PreservesCache (v : Expr → St → Except Err (Expr × St)) : Prop :=
  ∀ e st r st', CacheId st.cache → v e st = .ok (r, st') → CacheId st'.cache

theorem findCache_cacheId : ∀ (c : List (Expr × Expr)) (e r : Expr),
    CacheId c → findCache c e = some r → r = e := by
  intro c
  induction c with
  | nil => intro e r _ h; cases h
  | cons p ps ih =>
      intro e r hc h
      rw [findCache] at h
      by_cases hp : p.1 = e
      · rw [if_pos hp] at h
        injection h with h1
        rw [← h1, hc p (List.mem_cons_self p ps), hp]
      · rw [if_neg hp] at h
        exact ih e r (fun q hq => hc q (List.mem_cons_of_mem p hq)) h

theorem insertCache_cacheId (e r : Expr) (st : St) (hc : CacheId st.cache) (hr : r = e) :
    CacheId (insertCache e r st).cache := by
  intro p hp
  rcases List.mem_cons.mp hp with rfl | hp
  · simpa using hr
  · exact hc p hp

theorem inc_num_steps_cache (cfg : Cfg) (st st1 : St) (h : inc_num_steps cfg st = .ok st1) :
    st1.cache = st.cache := by
  rw [inc_num_steps] at h
  split at h
  · cases h
  · cases h; rfl

theorem visit_list_pc (v : Expr → St → Except Err (Expr × St)) (hv : PreservesCache v) :
    ∀ (as : List Expr) (st : St) nas st', CacheId st.cache →
      visit_list v as st = .ok (nas, st') → CacheId st'.cache := by
  intro as
  induction as with
  | nil => intro st nas st' hc h; simp [visit_list] at h; obtain ⟨rfl, rfl⟩ := h; exact hc
  | cons a as ih =>
      intro st nas st' hc h
      cases hva : v a st with
      | error er => simp [visit_list, hva] at h
      | ok p =>
          obtain ⟨na, st1⟩ := p
          cases hrec : visit_list v as st1 with
          | error er => simp [visit_list, hva, hrec] at h
          | ok q =>
              obtain ⟨nas1, st2⟩ := q
              simp [visit_list, hva, hrec] at h
              obtain ⟨rfl, rfl⟩ := h
              exact ih st1 nas1 _ (hv a st na st1 hc hva) hrec

theorem visit_app_args_pc (v : Expr → St → Except Err (Expr × St)) (cfg : Cfg)
    (hv : PreservesCache v) :
    ∀ (as : List Expr) (ps : List Bool) (st : St) nas m st', CacheId st.cache →
      visit_app_args v cfg ps as st = .ok (nas, m, st') → CacheId st'.cache := by
  intro as
  induction as with
  | nil =>
      intro ps st nas m st' hc h
      simp [visit_app_args] at h
      obtain ⟨rfl, rfl, rfl⟩ := h
      exact hc
  | cons a as ih =>
      intro ps st nas m st' hc h
      cases ps with
      | nil =>
          cases hva : v a st with
          | error er => simp [visit_app_args, hva] at h
          | ok p =>
              obtain ⟨na, st1⟩ := p
              cases hrec : visit_app_args v cfg [] as st1 with
              | error er => simp [visit_app_args, hva, hrec] at h
              | ok q =>
                  obtain ⟨nas1, m1, st2⟩ := q
                  simp [visit_app_args, hva, hrec] at h
                  obtain ⟨rfl, rfl, rfl⟩ := h
                  exact ih [] st1 nas1 m1 _ (hv a st na st1 hc hva) hrec
      | cons p ps =>
          cases p with
          | false =>
              cases hva : v a st with
              | error er => simp [visit_app_args, hva] at h
              | ok q0 =>
                  obtain ⟨na, st1⟩ := q0
                  cases hrec : visit_app_args v cfg ps as st1 with
                  | error er => simp [visit_app_args, hva, hrec] at h
                  | ok q =>
                      obtain ⟨nas1, m1, st2⟩ := q
                      simp [visit_app_args, hva, hrec] at h
                      obtain ⟨rfl, rfl, rfl⟩ := h
                      exact ih ps st1 nas1 m1 st2 (hv a st na st1 hc hva) hrec
          | true =>
              cases hrec : visit_app_args v cfg ps as
                  {st with needRestart := st.needRestart || (cfg.canon st.canonState a).2.1,
                           canonState := (cfg.canon st.canonState a).2.2} with
              | error er => simp [visit_app_args, hrec] at h
              | ok q =>
                  obtain ⟨nas1, m1, st2⟩ := q
                  simp [visit_app_args, hrec] at h
                  obtain ⟨rfl, rfl, rfl⟩ := h
                  refine ih ps _ nas1 m1 st2 ?_ hrec
                  exact hc

theorem visit_app_pc (v : Expr → St → Except Err (Expr × St)) (cfg : Cfg)
    (hv : PreservesCache v) (e : Expr) (st : St) (r : Expr) (st' : St)
    (hc : CacheId st.cache) (h : visit_app v cfg e st = .ok (r, st')) :
    CacheId st'.cache := by
  rw [visit_app] at h
  cases haa : visit_app_args v cfg
      (if cfg.visitInstances then [] else cfg.funInfo (getAppArgs e).1 (getAppArgs e).2.length)
      (getAppArgs e).2 st with
  | error er => rw [haa] at h; cases h
  | ok q =>
      obtain ⟨nas, m, st1⟩ := q
      rw [haa] at h
      cases h
      exact visit_app_args_pc v cfg hv _ _ _ _ _ _ hc haa

theorem visit_bindingFinish_pc (v : Expr → St → Except Err (Expr × St)) (hv : PreservesCache v)
    (b : Expr) (locals : List Expr) (modified : Bool) (st : St) (x : Expr × Bool × List Expr × St)
    (hc : CacheId st.cache) (h : visit_bindingFinish v b locals modified st = .ok x) :
    CacheId x.2.2.2.cache := by
  rw [visit_bindingFinish] at h
  cases hvb : v (instantiate_rev b locals) st with
  | error er => rw [hvb] at h; cases h
  | ok p =>
      obtain ⟨newB, st1⟩ := p
      rw [hvb] at h
      cases h
      exact hv _ st newB st1 hc hvb

theorem visit_bindingAux_pc (v : Expr → St → Except Err (Expr × St)) (hv : PreservesCache v)
    (isPi : Bool) :
    ∀ (b : Expr) (locals : List Expr) (modified : Bool) (st : St) (x : Expr × Bool × List Expr × St),
      CacheId st.cache → visit_bindingAux v isPi b locals modified st = .ok x →
      CacheId x.2.2.2.cache
  | .lam nm bi d bd, locals, modified, st, x => by
      intro hc h
      cases isPi with
      | true => exact visit_bindingFinish_pc v hv _ locals modified st x hc h
      | false =>
          cases hvd : v (instantiate_rev d locals) st with
          | error er => simp [visit_bindingAux, hvd] at h
          | ok p =>
              obtain ⟨newD, st1⟩ := p
              simp only [visit_bindingAux, hvd, Bool.false_eq_true, if_false] at h
              refine visit_bindingAux_pc v hv false bd _ _ _ x ?_ h
              exact hv _ st newD st1 hc hvd
  | .pi nm bi d bd, locals, modified, st, x => by
      intro hc h
      cases isPi with
      | false => exact visit_bindingFinish_pc v hv _ locals modified st x hc h
      | true =>
          cases hvd : v (instantiate_rev d locals) st with
          | error er => simp [visit_bindingAux, hvd] at h
          | ok p =>
              obtain ⟨newD, st1⟩ := p
              simp only [visit_bindingAux, hvd, if_true] at h
              refine visit_bindingAux_pc v hv true bd _ _ _ x ?_ h
              exact hv _ st newD st1 hc hvd
  | .var i, locals, modified, st, x => fun hc h =>
      visit_bindingFinish_pc v hv _ locals modified st x hc h
  | .lconst id nm ty bi, locals, modified, st, x => fun hc h =>
      visit_bindingFinish_pc v hv _ locals modified st x hc h
  | .mvar id ty, locals, modified, st, x => fun hc h =>
      visit_bindingFinish_pc v hv _ locals modified st x hc h
  | .sort l, locals, modified, st, x => fun hc h =>
      visit_bindingFinish_pc v hv _ locals modified st x hc h
  | .const n, locals, modified, st, x => fun hc h =>
      visit_bindingFinish_pc v hv _ locals modified st x hc h
  | .app f a, locals, modified, st, x => fun hc h =>
      visit_bindingFinish_pc v hv _ locals modified st x hc h
  | .elet nm t vl bd, locals, modified, st, x => fun hc h =>
      visit_bindingFinish_pc v hv _ locals modified st x hc h
  | .mac tag args, locals, modified, st, x => fun hc h =>
      visit_bindingFinish_pc v hv _ locals modified st x hc h

theorem visit_letAux_pc (vis : Expr → St → Except Err (Expr × St)) (hv : PreservesCache vis) :
    ∀ (b : Expr) (locals : List Expr) (modified : Bool) (st : St) (x : Expr × Bool × List Expr × St),
      CacheId st.cache → visit_letAux vis b locals modified st = .ok x →
      CacheId x.2.2.2.cache
  | .elet nm t vl bd, locals, modified, st, x => by
      intro hc h
      cases hvt : vis (instantiate_rev t locals) st with
      | error er => simp [visit_letAux, hvt] at h
      | ok p =>
          obtain ⟨newT, st1⟩ := p
          cases hvv : vis (instantiate_rev vl locals) st1 with
          | error er => simp [visit_letAux, hvt, hvv] at h
          | ok q =>
              obtain ⟨newV, st2⟩ := q
              simp only [visit_letAux, hvt, hvv] at h
              refine visit_letAux_pc vis hv bd _ _ _ x ?_ h
              exact hv _ st1 newV st2 (hv _ st newT st1 hc hvt) hvv
  | .var i, locals, modified, st, x => fun hc h =>
      visit_bindingFinish_pc vis hv _ locals modified st x hc h
  | .lconst id nm ty bi, locals, modified, st, x => fun hc h =>
      visit_bindingFinish_pc vis hv _ locals modified st x hc h
  | .mvar id ty, locals, modified, st, x => fun hc h =>
      visit_bindingFinish_pc vis hv _ locals modified st x hc h
  | .sort l, locals, modified, st, x => fun hc h =>
      visit_bindingFinish_pc vis hv _ locals modified st x hc h
  | .const n, locals, modified, st, x => fun hc h =>
      visit_bindingFinish_pc vis hv _ locals modified st x hc h
  | .app f a, locals, modified, st, x => fun hc h =>
      visit_bindingFinish_pc vis hv _ locals modified st x hc h
  | .lam nm bi d bd, locals, modified, st, x => fun hc h =>
      visit_bindingFinish_pc vis hv _ locals modified st x hc h
  | .pi nm bi d bd, locals, modified, st, x => fun hc h =>
      visit_bindingFinish_pc vis hv _ locals modified st x hc h
  | .mac tag args, locals, modified, st, x => fun hc h =>
      visit_bindingFinish_pc vis hv _ locals modified st x hc h

theorem visit_binding_pc (v : Expr → St → Except Err (Expr × St)) (hv : PreservesCache v)
    (e : Expr) (st : St) (r : Expr) (st' : St) (hc : CacheId st.cache)
    (h : visit_binding v e st = .ok (r, st')) : CacheId st'.cache := by
  rw [visit_binding] at h
  cases haux : visit_bindingAux v (isPiKind e) e [] false st with
  | error er => rw [haux] at h; cases h
  | ok q =>
      rw [haux] at h
      obtain ⟨newB, modified, locals, st1⟩ := q
      cases h
      exact visit_bindingAux_pc v hv (isPiKind e) e [] false st _ hc haux

theorem visit_let_pc (vis : Expr → St → Except Err (Expr × St)) (hv : PreservesCache vis)
    (e : Expr) (st : St) (r : Expr) (st' : St) (hc : CacheId st.cache)
    (h : visit_let vis e st = .ok (r, st')) : CacheId st'.cache := by
  rw [visit_let] at h
  cases haux : visit_letAux vis e [] false st with
  | error er => rw [haux] at h; cases h
  | ok q =>
      rw [haux] at h
      obtain ⟨newB, modified, locals, st1⟩ := q
      cases h
      exact visit_letAux_pc vis hv e [] false st _ hc haux

theorem dispatch_pc (v : Expr → St → Except Err (Expr × St)) (cfg : Cfg)
    (hv : PreservesCache v) (curr : Expr) (st : St) (r : Expr) (st' : St)
    (hc : CacheId st.cache) (h : dispatch v cfg curr st = .ok (r, st')) :
    CacheId st'.cache := by
  cases curr with
  | var i => rw [dispatch] at h; cases h
  | lconst id nm ty bi => rw [dispatch] at h; cases h; exact hc
  | mvar id ty => rw [dispatch] at h; cases h; exact hc
  | sort l => rw [dispatch] at h; cases h; exact hc
  | const n => rw [dispatch] at h; cases h; exact hc
  | mac tag args =>
      cases hvl : visit_list v args st with
      | error er => simp [dispatch, hvl] at h
      | ok q =>
          obtain ⟨nargs, st1⟩ := q
          simp [dispatch, hvl] at h
          obtain ⟨rfl, rfl⟩ := h
          exact visit_list_pc v hv args st nargs _ hc hvl
  | lam nm bi d bd => exact visit_binding_pc v hv _ st r st' hc h
  | pi nm bi d bd => exact visit_binding_pc v hv _ st r st' hc h
  | app f a => exact visit_app_pc v cfg hv _ st r st' hc h
  | elet nm t vl bd => exact visit_let_pc v hv _ st r st' hc h

theorem post_loop_default_pc (v : Expr → St → Except Err (Expr × St)) (cfg : Cfg)
    (hdef : IsDefaultHooks cfg) (hv : PreservesCache v) :
    ∀ (fuel : Nat) (curr : Expr) (st : St) r st', CacheId st.cache →
      post_loop v cfg fuel curr st = .ok (r, st') → r = curr ∧ CacheId st'.cache := by
  intro fuel curr st r st' hc h
  cases fuel with
  | zero => rw [post_loop] at h; cases h
  | succ fuel =>
      cases hd : dispatch v cfg curr st with
      | error er => simp [post_loop, hd] at h
      | ok p =>
          obtain ⟨newE, st1⟩ := p
          simp [post_loop, hd, hdef.2 newE st1] at h
          obtain ⟨rfl, rfl⟩ := h
          exact ⟨rfl, dispatch_pc v cfg hv curr st newE _ hc hd⟩

theorem visit_default (cfg : Cfg) (hdef : IsDefaultHooks cfg) :
    ∀ (fuel : Nat) (e : Expr) (st : St) r st', CacheId st.cache →
      visit fuel cfg e st = .ok (r, st') → r = e ∧ CacheId st'.cache := by
  intro fuel
  induction fuel with
  | zero => intro e st r st' hc h; rw [visit] at h; cases h
  | succ fuel ih =>
      intro e st r st' hc h
      have hv : PreservesCache (fun a s => visit fuel cfg a s) :=
        fun a s ra sa hca ha => (ih a s ra sa hca ha).2
      cases hs : inc_num_steps cfg st with
      | error er => simp [visit, hs] at h
      | ok st1 =>
          have hc1 : CacheId st1.cache := by rw [inc_num_steps_cache cfg st st1 hs]; exact hc
          cases hf : findCache st1.cache e with
          | some r0 =>
              simp [visit, hs, hf] at h
              obtain ⟨rfl, rfl⟩ := h
              exact ⟨findCache_cacheId _ _ _ hc1 hf, hc1⟩
          | none =>
              cases hp : post_loop (fun a s => visit fuel cfg a s) cfg fuel e st1 with
              | error er => simp [visit, hs, hf, hdef.1 e st1, hp] at h
              | ok q =>
                  obtain ⟨r1, st3⟩ := q
                  simp [visit, hs, hf, hdef.1 e st1, hp] at h
                  obtain ⟨rfl, rfl⟩ := h
                  obtain ⟨hr1, hc3⟩ :=
                    post_loop_default_pc _ cfg hdef hv fuel e st1 r1 st3 hc1 hp
                  exact ⟨hr1, insertCache_cacheId e r1 st3 hc3 hr1⟩

/-- C5: with the default (empty) pre and post hooks, whenever a top-level
invocation succeeds (so in particular within the step ceiling), it
returns the submitted expression itself: on every success path the
embedding returns the very input term, mirroring the source's return of
the identical object (reference identity, not just structural
equality). -/
theorem dsimplify_default_identity (cfg : Cfg) (hdef : IsDefaultHooks cfg) :
    ∀ (rfuel vfuel : Nat) (e : Expr) (st : St) r st', CacheId st.cache →
      dsimplify rfuel vfuel cfg e st = .ok (r, st') → r = e := by
  intro rfuel
  induction rfuel with
  | zero => intro vfuel e st r st' hc h; rw [dsimplify] at h; cases h
  | succ rfuel ih =>
      intro vfuel e st r st' hc h
      cases hvis : visit vfuel cfg e {st with needRestart := false} with
      | error er => simp [dsimplify, hvis] at h
      | ok p =>
          obtain ⟨e1, st1⟩ := p
          obtain ⟨he1, hc1⟩ := visit_default cfg hdef vfuel e _ e1 st1 (by exact hc) hvis
          cases hr : st1.needRestart with
          | true =>
              simp only [dsimplify, hvis, hr, if_true] at h
              have hrec := ih vfuel e1 {st1 with cache := [], needRestart := true} r st'
                (fun p hp => absurd hp (List.not_mem_nil p)) h
              rw [hrec, he1]
          | false =>
              simp [dsimplify, hvis, hr] at h
              obtain ⟨rfl, rfl⟩ := h
              exact he1

theorem dsimplify_default_identity_witness :
    (Expr.app (.lam 1 .default (.const 2) (.var 0)) (.const 3))
      = (Expr.app (.lam 1 .default (.const 2) (.var 0)) (.const 3)) :=
  dsimplify_default_identity cfgDefaults ⟨fun _ _ => rfl, fun _ _ => rfl⟩ 2 9
    (.app (.lam 1 .default (.const 2) (.var 0)) (.const 3)) st0
    (.app (.lam 1 .default (.const 2) (.var 0)) (.const 3))
    ⟨[(.app (.lam 1 .default (.const 2) (.var 0)) (.const 3),
       .app (.lam 1 .default (.const 2) (.var 0)) (.const 3)),
      (.const 3, .const 3)], 2, false, 0, 0⟩
    (fun p hp => absurd hp (List.not_mem_nil p)) (by decide)

theorem nthE_mem : ∀ (s : List Expr) (j : Nat), j < s.length → nthE s j ∈ s := by
  intro s
  induction s with
  | nil => intro j h; simp at h
  | cons a as ih =>
      intro j h
      cases j with
      | zero => simp [nthE]
      | succ j => exact List.mem_cons_of_mem a (ih j (by simpa using h))

mutual

theorem lift_closedUpTo : ∀ (e : Expr) (s d k : Nat),
    closedUpTo k e = true → closedUpTo (k + d) (liftLooseBVars s d e) = true
  | .var i, s, d, k => by
      simp only [closedUpTo, liftLooseBVars, decide_eq_true_eq]
      intro h
      split <;> simp only [closedUpTo, decide_eq_true_eq] <;> omega
  | .lconst id nm ty bi, s, d, k => by simp [closedUpTo, liftLooseBVars]
  | .mvar id ty, s, d, k => by simp [closedUpTo, liftLooseBVars]
  | .sort l, s, d, k => by simp [closedUpTo, liftLooseBVars]
  | .const n, s, d, k => by simp [closedUpTo, liftLooseBVars]
  | .app f a, s, d, k => by
      simp only [closedUpTo, liftLooseBVars, Bool.and_eq_true]
      rintro ⟨h1, h2⟩
      exact ⟨lift_closedUpTo f s d k h1, lift_closedUpTo a s d k h2⟩
  | .lam nm bi dd b, s, d, k => by
      simp only [closedUpTo, liftLooseBVars, Bool.and_eq_true]
      rintro ⟨h1, h2⟩
      refine ⟨lift_closedUpTo dd s d k h1, ?_⟩
      have hb := lift_closedUpTo b (s+1) d (k+1) h2
      have harith : k + 1 + d = k + d + 1 := by omega
      rwa [harith] at hb
  | .pi nm bi dd b, s, d, k => by
      simp only [closedUpTo, liftLooseBVars, Bool.and_eq_true]
      rintro ⟨h1, h2⟩
      refine ⟨lift_closedUpTo dd s d k h1, ?_⟩
      have hb := lift_closedUpTo b (s+1) d (k+1) h2
      have harith : k + 1 + d = k + d + 1 := by omega
      rwa [harith] at hb
  | .elet nm t vl b, s, d, k => by
      simp only [closedUpTo, liftLooseBVars, Bool.and_eq_true]
      rintro ⟨⟨h1, h2⟩, h3⟩
      refine ⟨⟨lift_closedUpTo t s d k h1, lift_closedUpTo vl s d k h2⟩, ?_⟩
      have hb := lift_closedUpTo b (s+1) d (k+1) h3
      have harith : k + 1 + d = k + d + 1 := by omega
      rwa [harith] at hb
  | .mac t args, s, d, k => by
      simp only [closedUpTo, liftLooseBVars]
      exact liftList_closedUpTo args s d k

theorem liftList_closedUpTo : ∀ (es : List Expr) (s d k : Nat),
    closedUpToList k es = true → closedUpToList (k + d) (liftLooseBVarsList s d es) = true
  | [], s, d, k => by simp [closedUpToList, liftLooseBVarsList]
  | e :: es, s, d, k => by
      simp only [closedUpToList, liftLooseBVarsList, Bool.and_eq_true]
      rintro ⟨h1, h2⟩
      exact ⟨lift_closedUpTo e s d k h1, liftList_closedUpTo es s d k h2⟩

end

mutual

theorem inst_closedUpTo : ∀ (e : Expr) (s : List Expr) (ofs : Nat),
    closedUpTo (ofs + s.length) e = true → (∀ x ∈ s, closedUpTo 0 x = true) →
    closedUpTo ofs (instantiateCore s ofs e) = true
  | .var i, s, ofs => by
      simp only [closedUpTo, instantiateCore, decide_eq_true_eq]
      intro h hs
      by_cases h1 : i < ofs
      · rw [if_pos h1]
        simpa [closedUpTo] using h1
      · rw [if_neg h1]
        by_cases h2 : i - ofs < s.length
        · rw [if_pos h2]
          have hm := nthE_mem s (i - ofs) h2
          have hlift := lift_closedUpTo (nthE s (i - ofs)) 0 ofs 0 (hs _ hm)
          simpa using hlift
        · rw [if_neg h2]
          simp only [closedUpTo, decide_eq_true_eq]
          omega
  | .lconst id nm ty bi, s, ofs => by simp [closedUpTo, instantiateCore]
  | .mvar id ty, s, ofs => by simp [closedUpTo, instantiateCore]
  | .sort l, s, ofs => by simp [closedUpTo, instantiateCore]
  | .const n, s, ofs => by simp [closedUpTo, instantiateCore]
  | .app f a, s, ofs => by
      simp only [closedUpTo, instantiateCore, Bool.and_eq_true]
      rintro ⟨h1, h2⟩ hs
      exact ⟨inst_closedUpTo f s ofs h1 hs, inst_closedUpTo a s ofs h2 hs⟩
  | .lam nm bi dd b, s, ofs => by
      simp only [closedUpTo, instantiateCore, Bool.and_eq_true]
      rintro ⟨h1, h2⟩ hs
      refine ⟨inst_closedUpTo dd s ofs h1 hs, ?_⟩
      refine inst_closedUpTo b s (ofs+1) ?_ hs
      have harith : ofs + 1 + s.length = ofs + s.length + 1 := by omega
      rw [harith]
      exact h2
  | .pi nm bi dd b, s, ofs => by
      simp only [closedUpTo, instantiateCore, Bool.and_eq_true]
      rintro ⟨h1, h2⟩ hs
      refine ⟨inst_closedUpTo dd s ofs h1 hs, ?_⟩
      refine inst_closedUpTo b s (ofs+1) ?_ hs
      have harith : ofs + 1 + s.length = ofs + s.length + 1 := by omega
      rw [harith]
      exact h2
  | .elet nm t vl b, s, ofs => by
      simp only [closedUpTo, instantiateCore, Bool.and_eq_true]
      rintro ⟨⟨h1, h2⟩, h3⟩ hs
      refine ⟨⟨inst_closedUpTo t s ofs h1 hs, inst_closedUpTo vl s ofs h2 hs⟩, ?_⟩
      refine inst_closedUpTo b s (ofs+1) ?_ hs
      have harith : ofs + 1 + s.length = ofs + s.length + 1 := by omega
      rw [harith]
      exact h3
  | .mac t args, s, ofs => by
      simp only [closedUpTo, instantiateCore]
      exact instList_closedUpTo args s ofs

theorem instList_closedUpTo : ∀ (es : List Expr) (s : List Expr) (ofs : Nat),
    closedUpToList (ofs + s.length) es = true → (∀ x ∈ s, closedUpTo 0 x = true) →
    closedUpToList ofs (instantiateCoreList s ofs es) = true
  | [], s, ofs => by simp [closedUpToList, instantiateCoreList]
  | e :: es, s, ofs => by
      simp only [closedUpToList, instantiateCoreList, Bool.and_eq_true]
      rintro ⟨h1, h2⟩ hs
      exact ⟨inst_closedUpTo e s ofs h1 hs, instList_closedUpTo es s ofs h2 hs⟩

end

theorem instantiate_rev_closed (e : Expr) (locals : List Expr)
    (he : closedUpTo locals.length e = true)
    (hl : ∀ x ∈ locals, closedUpTo 0 x = true) :
    closedUpTo 0 (instantiate_rev e locals) = true := by
  rw [instantiate_rev]
  refine inst_closedUpTo e locals.reverse 0 ?_ ?_
  · simpa [List.length_reverse] using he
  · intro x hx
    exact hl x (List.mem_reverse.mp hx)

theorem closedUpToList_mem : ∀ (es : List Expr) (d : Nat), closedUpToList d es = true →
    ∀ x ∈ es, closedUpTo d x = true := by
  intro es d h x hx
  induction es with
  | nil => cases hx
  | cons e es ih =>
      simp only [closedUpToList, Bool.and_eq_true] at h
      rcases List.mem_cons.mp hx with rfl | hx2
      · exact h.1
      · exact ih h.2 hx2

theorem getAppArgsAux_closed : ∀ (e : Expr) (acc : List Expr),
    closedUpTo 0 e = true → (∀ x ∈ acc, closedUpTo 0 x = true) →
    ∀ x ∈ (getAppArgsAux e acc).2, closedUpTo 0 x = true
  | .app f a, acc => by
      simp only [closedUpTo, Bool.and_eq_true]
      rintro ⟨h1, h2⟩ ha
      exact getAppArgsAux_closed f (a :: acc) h1 (by
        intro x hx
        rcases List.mem_cons.mp hx with rfl | hx
        · exact h2
        · exact ha x hx)
  | .var i, acc => fun _ ha => ha
  | .lconst id nm ty bi, acc => fun _ ha => ha
  | .mvar id ty, acc => fun _ ha => ha
  | .sort l, acc => fun _ ha => ha
  | .const n, acc => fun _ ha => ha
  | .lam nm bi d b, acc => fun _ ha => ha
  | .pi nm bi d b, acc => fun _ ha => ha
  | .elet nm t vl b, acc => fun _ ha => ha
  | .mac t args, acc => fun _ ha => ha

/-- The visitor `v` never produces the fatal loose-bound-variable error on
a closed input. -/
def NoLoose (v : Expr → St → Except Err (Expr × St)) : Prop :=
  ∀ e st, closedUpTo 0 e = true → v e st ≠ .error .looseBVar

theorem visit_list_nl (v : Expr → St → Except Err (Expr × St)) (hv : NoLoose v) :
    ∀ (as : List Expr) (st : St), (∀ x ∈ as, closedUpTo 0 x = true) →
      visit_list v as st ≠ .error .looseBVar := by
  intro as
  induction as with
  | nil => intro st _; simp [visit_list]
  | cons a as ih =>
      intro st hcl
      have hca : closedUpTo 0 a = true := hcl a (List.mem_cons_self a as)
      have hcas : ∀ x ∈ as, closedUpTo 0 x = true :=
        fun x hx => hcl x (List.mem_cons_of_mem a hx)
      cases hva : v a st with
      | error er =>
          have her : er ≠ Err.looseBVar := fun hk => hv a st hca (hk ▸ hva)
          simpa [visit_list, hva] using her
      | ok p =>
          obtain ⟨na, st1⟩ := p
          cases hrec : visit_list v as st1 with
          | error er =>
              have her : er ≠ Err.looseBVar := fun hk => ih st1 hcas (hk ▸ hrec)
              simpa [visit_list, hva, hrec] using her
          | ok q => obtain ⟨nas1, st2⟩ := q; simp [visit_list, hva, hrec]

theorem visit_app_args_nl (v : Expr → St → Except Err (Expr × St)) (cfg : Cfg)
    (hv : NoLoose v) :
    ∀ (as : List Expr) (ps : List Bool) (st : St), (∀ x ∈ as, closedUpTo 0 x = true) →
      visit_app_args v cfg ps as st ≠ .error .looseBVar := by
  intro as
  induction as with
  | nil => intro ps st _; simp [visit_app_args]
  | cons a as ih =>
      intro ps st hcl
      have hca : closedUpTo 0 a = true := hcl a (List.mem_cons_self a as)
      have hcas : ∀ x ∈ as, closedUpTo 0 x = true :=
        fun x hx => hcl x (List.mem_cons_of_mem a hx)
      cases ps with
      | nil =>
          cases hva : v a st with
          | error er =>
              have her : er ≠ Err.looseBVar := fun hk => hv a st hca (hk ▸ hva)
              simpa [visit_app_args, hva] using her
          | ok p =>
              obtain ⟨na, st1⟩ := p
              cases hrec : visit_app_args v cfg [] as st1 with
              | error er =>
                  have her : er ≠ Err.looseBVar := fun hk => ih [] st1 hcas (hk ▸ hrec)
                  simpa [visit_app_args, hva, hrec] using her
              | ok q => obtain ⟨nas1, m1, st2⟩ := q; simp [visit_app_args, hva, hrec]
      | cons p ps =>
          cases p with
          | false =>
              cases hva : v a st with
              | error er =>
                  have her : er ≠ Err.looseBVar := fun hk => hv a st hca (hk ▸ hva)
                  simpa [visit_app_args, hva] using her
              | ok q0 =>
                  obtain ⟨na, st1⟩ := q0
                  cases hrec : visit_app_args v cfg ps as st1 with
                  | error er =>
                      have her : er ≠ Err.looseBVar := fun hk => ih ps st1 hcas (hk ▸ hrec)
                      simpa [visit_app_args, hva, hrec] using her
                  | ok q => obtain ⟨nas1, m1, st2⟩ := q; simp [visit_app_args, hva, hrec]
          | true =>
              cases hrec : visit_app_args v cfg ps as
                  {st with needRestart := st.needRestart || (cfg.canon st.canonState a).2.1,
                           canonState := (cfg.canon st.canonState a).2.2} with
              | error er =>
                  have her : er ≠ Err.looseBVar := fun hk => ih ps _ hcas (hk ▸ hrec)
                  simpa [visit_app_args, hrec] using her
              | ok q => obtain ⟨nas1, m1, st2⟩ := q; simp [visit_app_args, hrec]

theorem visit_app_nl (v : Expr → St → Except Err (Expr × St)) (cfg : Cfg)
    (hv : NoLoose v) (e : Expr) (st : St) (hcl : closedUpTo 0 e = true) :
    visit_app v cfg e st ≠ .error .looseBVar := by
  have hargs : ∀ x ∈ (getAppArgs e).2, closedUpTo 0 x = true :=
    getAppArgsAux_closed e [] hcl (fun x hx => absurd hx (List.not_mem_nil x))
  cases haa : visit_app_args v cfg
      (if cfg.visitInstances then [] else cfg.funInfo (getAppArgs e).1 (getAppArgs e).2.length)
      (getAppArgs e).2 st with
  | error er =>
      have her : er ≠ Err.looseBVar := fun hk => visit_app_args_nl v cfg hv _ _ st hargs (hk ▸ haa)
      simpa [visit_app, haa] using her
  | ok q => obtain ⟨nas, m, st1⟩ := q; simp [visit_app, haa]

theorem visit_bindingFinish_nl (v : Expr → St → Except Err (Expr × St)) (hv : NoLoose v)
    (b : Expr) (locals : List Expr) (modified : Bool) (st : St)
    (hb : closedUpTo locals.length b = true)
    (hl : ∀ x ∈ locals, closedUpTo 0 x = true) :
    visit_bindingFinish v b locals modified st ≠ .error .looseBVar := by
  have hcb := instantiate_rev_closed b locals hb hl
  cases hvb : v (instantiate_rev b locals) st with
  | error er =>
      have her : er ≠ Err.looseBVar := fun hk => hv _ st hcb (hk ▸ hvb)
      simpa [visit_bindingFinish, hvb] using her
  | ok p => obtain ⟨newB, st1⟩ := p; simp [visit_bindingFinish, hvb]

theorem visit_bindingAux_nl (v : Expr → St → Except Err (Expr × St)) (hv : NoLoose v)
    (isPi : Bool) :
    ∀ (b : Expr) (locals : List Expr) (modified : Bool) (st : St),
      closedUpTo locals.length b = true → (∀ x ∈ locals, closedUpTo 0 x = true) →
      visit_bindingAux v isPi b locals modified st ≠ .error .looseBVar
  | .lam nm bi d bd, locals, modified, st => by
      intro hb hl
      simp only [closedUpTo, Bool.and_eq_true] at hb
      obtain ⟨hdc, hbd⟩ := hb
      cases isPi with
      | true =>
          exact visit_bindingFinish_nl v hv _ locals modified st
            (by simp [closedUpTo, hdc, hbd]) hl
      | false =>
          have hcld : closedUpTo 0 (instantiate_rev d locals) = true :=
            instantiate_rev_closed d locals hdc hl
          cases hvd : v (instantiate_rev d locals) st with
          | error er =>
              have her : er ≠ Err.looseBVar := fun hk => hv _ st hcld (hk ▸ hvd)
              simpa [visit_bindingAux, hvd] using her
          | ok p =>
              obtain ⟨newD, st1⟩ := p
              have hrec := visit_bindingAux_nl v hv false bd
                (locals ++ [Expr.lconst st1.nextId nm newD bi])
                (modified || decide (instantiate_rev d locals ≠ newD))
                {st1 with nextId := st1.nextId + 1}
                (by simpa using hbd)
                (by
                  intro x hx
                  rcases List.mem_append.mp hx with hx | hx
                  · exact hl x hx
                  · rcases List.mem_singleton.mp hx with rfl
                    rfl)
              simpa [visit_bindingAux, hvd] using hrec
  | .pi nm bi d bd, locals, modified, st => by
      intro hb hl
      simp only [closedUpTo, Bool.and_eq_true] at hb
      obtain ⟨hdc, hbd⟩ := hb
      cases isPi with
      | false =>
          exact visit_bindingFinish_nl v hv _ locals modified st
            (by simp [closedUpTo, hdc, hbd]) hl
      | true =>
          have hcld : closedUpTo 0 (instantiate_rev d locals) = true :=
            instantiate_rev_closed d locals hdc hl
          cases hvd : v (instantiate_rev d locals) st with
          | error er =>
              have her : er ≠ Err.looseBVar := fun hk => hv _ st hcld (hk ▸ hvd)
              simpa [visit_bindingAux, hvd] using her
          | ok p =>
              obtain ⟨newD, st1⟩ := p
              have hrec := visit_bindingAux_nl v hv true bd
                (locals ++ [Expr.lconst st1.nextId nm newD bi])
                (modified || decide (instantiate_rev d locals ≠ newD))
                {st1 with nextId := st1.nextId + 1}
                (by simpa using hbd)
                (by
                  intro x hx
                  rcases List.mem_append.mp hx with hx | hx
                  · exact hl x hx
                  · rcases List.mem_singleton.mp hx with rfl
                    rfl)
              simpa [visit_bindingAux, hvd] using hrec
  | .var i, locals, modified, st => fun hb hl =>
      visit_bindingFinish_nl v hv _ locals modified st hb hl
  | .lconst id nm ty bi, locals, modified, st => fun hb hl =>
      visit_bindingFinish_nl v hv _ locals modified st hb hl
  | .mvar id ty, locals, modified, st => fun hb hl =>
      visit_bindingFinish_nl v hv _ locals modified st hb hl
  | .sort l, locals, modified, st => fun hb hl =>
      visit_bindingFinish_nl v hv _ locals modified st hb hl
  | .const n, locals, modified, st => fun hb hl =>
      visit_bindingFinish_nl v hv _ locals modified st hb hl
  | .app f a, locals, modified, st => fun hb hl =>
      visit_bindingFinish_nl v hv _ locals modified st hb hl
  | .elet nm t vl bd, locals, modified, st => fun hb hl =>
      visit_bindingFinish_nl v hv _ locals modified st hb hl
  | .mac tag args, locals, modified, st => fun hb hl =>
      visit_bindingFinish_nl v hv _ locals modified st hb hl

theorem visit_letAux_nl (vis : Expr → St → Except Err (Expr × St)) (hv : NoLoose vis) :
    ∀ (b : Expr) (locals : List Expr) (modified : Bool) (st : St),
      closedUpTo locals.length b = true → (∀ x ∈ locals, closedUpTo 0 x = true) →
      visit_letAux vis b locals modified st ≠ .error .looseBVar
  | .elet nm t vl bd, locals, modified, st => by
      intro hb hl
      simp only [closedUpTo, Bool.and_eq_true] at hb
      obtain ⟨⟨ht, hvl⟩, hbd⟩ := hb
      have hclt : closedUpTo 0 (instantiate_rev t locals) = true :=
        instantiate_rev_closed t locals ht hl
      have hclv : closedUpTo 0 (instantiate_rev vl locals) = true :=
        instantiate_rev_closed vl locals hvl hl
      cases hvt : vis (instantiate_rev t locals) st with
      | error er =>
          have her : er ≠ Err.looseBVar := fun hk => hv _ st hclt (hk ▸ hvt)
          simpa [visit_letAux, hvt] using her
      | ok p =>
          obtain ⟨newT, st1⟩ := p
          cases hvv : vis (instantiate_rev vl locals) st1 with
          | error er =>
              have her : er ≠ Err.looseBVar := fun hk => hv _ st1 hclv (hk ▸ hvv)
              simpa [visit_letAux, hvt, hvv] using her
          | ok q =>
              obtain ⟨newV, st2⟩ := q
              have hrec := visit_letAux_nl vis hv bd
                (locals ++ [Expr.lconst st2.nextId nm (instantiate_rev t locals) .default])
                (modified || decide (instantiate_rev t locals ≠ newT)
                  || decide (instantiate_rev vl locals ≠ newV))
                {st2 with nextId := st2.nextId + 1}
                (by simpa using hbd)
                (by
                  intro x hx
                  rcases List.mem_append.mp hx with hx | hx
                  · exact hl x hx
                  · rcases List.mem_singleton.mp hx with rfl
                    rfl)
              simpa [visit_letAux, hvt, hvv] using hrec
  | .var i, locals, modified, st => fun hb hl =>
      visit_bindingFinish_nl vis hv _ locals modified st hb hl
  | .lconst id nm ty bi, locals, modified, st => fun hb hl =>
      visit_bindingFinish_nl vis hv _ locals modified st hb hl
  | .mvar id ty, locals, modified, st => fun hb hl =>
      visit_bindingFinish_nl vis hv _ locals modified st hb hl
  | .sort l, locals, modified, st => fun hb hl =>
      visit_bindingFinish_nl vis hv _ locals modified st hb hl
  | .const n, locals, modified, st => fun hb hl =>
      visit_bindingFinish_nl vis hv _ locals modified st hb hl
  | .app f a, locals, modified, st => fun hb hl =>
      visit_bindingFinish_nl vis hv _ locals modified st hb hl
  | .lam nm bi d bd, locals, modified, st => fun hb hl =>
      visit_bindingFinish_nl vis hv _ locals modified st hb hl
  | .pi nm bi d bd, locals, modified, st => fun hb hl =>
      visit_bindingFinish_nl vis hv _ locals modified st hb hl
  | .mac tag args, locals, modified, st => fun hb hl =>
      visit_bindingFinish_nl vis hv _ locals modified st hb hl

theorem visit_binding_nl (v : Expr → St → Except Err (Expr × St)) (hv : NoLoose v)
    (e : Expr) (st : St) (he : closedUpTo 0 e = true) :
    visit_binding v e st ≠ .error .looseBVar := by
  have haux := visit_bindingAux_nl v hv (isPiKind e) e [] false st (by simpa using he)
    (fun x hx => absurd hx (List.not_mem_nil x))
  cases hx : visit_bindingAux v (isPiKind e) e [] false st with
  | error er =>
      have her : er ≠ Err.looseBVar := fun hk => haux (hk ▸ hx)
      simpa [visit_binding, hx] using her
  | ok q =>
      obtain ⟨newB, modified, locals, st1⟩ := q
      simp [visit_binding, hx]

theorem visit_let_nl (vis : Expr → St → Except Err (Expr × St)) (hv : NoLoose vis)
    (e : Expr) (st : St) (he : closedUpTo 0 e = true) :
    visit_let vis e st ≠ .error .looseBVar := by
  have haux := visit_letAux_nl vis hv e [] false st (by simpa using he)
    (fun x hx => absurd hx (List.not_mem_nil x))
  cases hx : visit_letAux vis e [] false st with
  | error er =>
      have her : er ≠ Err.looseBVar := fun hk => haux (hk ▸ hx)
      simpa [visit_let, hx] using her
  | ok q =>
      obtain ⟨newB, modified, locals, st1⟩ := q
      simp [visit_let, hx]

theorem dispatch_nl (v : Expr → St → Except Err (Expr × St)) (cfg : Cfg) (hv : NoLoose v)
    (curr : Expr) (st : St) (hcl : closedUpTo 0 curr = true) :
    dispatch v cfg curr st ≠ .error .looseBVar := by
  cases curr with
  | var i => simp [closedUpTo] at hcl
  | lconst id nm ty bi => simp [dispatch]
  | mvar id ty => simp [dispatch]
  | sort l => simp [dispatch]
  | const n => simp [dispatch]
  | mac tag args =>
      have hargs : ∀ x ∈ args, closedUpTo 0 x = true :=
        closedUpToList_mem args 0 (by simpa [closedUpTo] using hcl)
      cases hvl : visit_list v args st with
      | error er =>
          have her : er ≠ Err.looseBVar := fun hk => visit_list_nl v hv args st hargs (hk ▸ hvl)
          simpa [dispatch, hvl] using her
      | ok q => obtain ⟨nargs, st1⟩ := q; simp [dispatch, hvl]
  | lam nm bi d bd => exact visit_binding_nl v hv _ st hcl
  | pi nm bi d bd => exact visit_binding_nl v hv _ st hcl
  | app f a => exact visit_app_nl v cfg hv _ st hcl
  | elet nm t vl bd => exact visit_let_nl v hv _ st hcl

theorem post_loop_default_nl (v : Expr → St → Except Err (Expr × St)) (cfg : Cfg)
    (hdef : IsDefaultHooks cfg) (hv : NoLoose v) :
    ∀ (fuel : Nat) (curr : Expr) (st : St), closedUpTo 0 curr = true →
      post_loop v cfg fuel curr st ≠ .error .looseBVar := by
  intro fuel curr st hcl
  cases fuel with
  | zero => simp [post_loop]
  | succ fuel =>
      cases hd : dispatch v cfg curr st with
      | error er =>
          have her : er ≠ Err.looseBVar := fun hk => dispatch_nl v cfg hv curr st hcl (hk ▸ hd)
          simpa [post_loop, hd] using her
      | ok p =>
          obtain ⟨newE, st1⟩ := p
          simp [post_loop, hd, hdef.2 newE st1]

theorem visit_nl (cfg : Cfg) (hdef : IsDefaultHooks cfg) :
    ∀ (fuel : Nat) (e : Expr) (st : St), closedUpTo 0 e = true →
      visit fuel cfg e st ≠ .error .looseBVar := by
  intro fuel
  induction fuel with
  | zero => intro e st _; simp [visit]
  | succ fuel ih =>
      intro e st hcl
      have hv : NoLoose (fun a s => visit fuel cfg a s) := fun a s ha => ih a s ha
      cases hs : inc_num_steps cfg st with
      | error er =>
          have her : er ≠ Err.looseBVar := by
            rw [inc_num_steps] at hs
            split at hs
            · cases hs; simp
            · cases hs
          simpa [visit, hs] using her
      | ok st1 =>
          cases hf : findCache st1.cache e with
          | some r => simp [visit, hs, hf]
          | none =>
              cases hp : post_loop (fun a s => visit fuel cfg a s) cfg fuel e st1 with
              | error er =>
                  have her : er ≠ Err.looseBVar :=
                    fun hk => post_loop_default_nl _ cfg hdef hv fuel e st1 hcl (hk ▸ hp)
                  simpa [visit, hs, hf, hdef.1 e st1, hp] using her
              | ok q =>
                  obtain ⟨r, st3⟩ := q
                  simp [visit, hs, hf, hdef.1 e st1, hp]

/-- C9: a raw bound-variable index met during traversal is the
unconditional fatal branch — the per-shape dispatch on it is the fatal
error for any visitor and any state, and a fresh visit of it (default
hooks, cache miss, ceiling not reached) surfaces the fatal error rather
than silently returning a result; moreover, under the precondition that
the root is closed (binder bodies being instantiated before inspection),
the branch is unreachable: no visit of a closed root ever produces the
fatal error. -/
theorem var_fatal_and_unreachable :
    (∀ (v : Expr → St → Except Err (Expr × St)) (cfg : Cfg) (i : Nat) (st : St),
        dispatch v cfg (.var i) st = .error .looseBVar) ∧
    (∀ (fuel : Nat) (cfg : Cfg) (i : Nat) (st : St), IsDefaultHooks cfg →
        findCache st.cache (.var i) = none → st.numSteps < cfg.maxSteps →
        visit (fuel+2) cfg (.var i) st = .error .looseBVar) ∧
    (∀ (fuel : Nat) (cfg : Cfg) (e : Expr) (st : St), IsDefaultHooks cfg →
        closedUpTo 0 e = true → visit fuel cfg e st ≠ .error .looseBVar) := by
  refine ⟨fun v cfg i st => rfl, ?_, ?_⟩
  · intro fuel cfg i st hdef hfc hlt
    have hs := inc_num_steps_ok cfg st hlt
    have hfc1 : findCache ({st with numSteps := st.numSteps + 1} : St).cache (.var i) = none :=
      hfc
    simp [visit, hs, hfc1, hdef.1, post_loop, dispatch]
  · intro fuel cfg e st hdef hcl
    exact visit_nl cfg hdef fuel e st hcl

theorem var_fatal_and_unreachable_witness :
    dispatch (fun a s => visit 1 cfgDefaults a s) cfgDefaults (.var 0) st0
        = .error .looseBVar ∧
    visit 3 cfgDefaults (.var 0) st0 = .error .looseBVar ∧
    visit 5 cfgDefaults (.const 0) st0 ≠ .error .looseBVar :=
  ⟨(var_fatal_and_unreachable).1 (fun a s => visit 1 cfgDefaults a s) cfgDefaults 0 st0,
   (var_fatal_and_unreachable).2.1 1 cfgDefaults 0 st0 ⟨fun _ _ => rfl, fun _ _ => rfl⟩
     rfl (by decide),
   (var_fatal_and_unreachable).2.2 5 cfgDefaults (.const 0) st0 ⟨fun _ _ => rfl, fun _ _ => rfl⟩
     (by decide)⟩

end DSimp
